import Mathlib

/-!
# fluent-bit-pubsub-plugin: record decoding, message building, publish outcome

A shallow embedding of the plugin's core (`pubsub_output.go`, `plugin/plugin.go`,
`plugin/records.go`) and of its configuration code (`plugin/configstore.go`,
`plugin/config.go`), together with theorems about them.

Conventions of the embedding
* Go `string` and `[]byte` are byte sequences: `List Nat`, every element below 256.
* Go maps are association lists; lookup takes the first entry of a key, assignment replaces
  the entry of the key or appends one, `delete` drops every entry of the key. A Go map never
  holds a key twice, so theorems that read a map entry by entry assume distinct keys.
* Maps are never nil: every map the code handles comes from `make` or a map literal.
* A Go panic is the `Outcome.panic` result.
* Library code the plugin calls (`status.FromError`, `time.Unix`, `fmt.Sprint`,
  `json.Marshal`, `strconv.ParseBool`, `strings.FieldsFunc`, `unicode.IsSpace`, the matching
  of the regular expression `sn`) is modelled from its documentation or taken as a parameter.
* A method that logs returns the logged event next to its results.
-/

namespace PubSubPlugin

/-! ## Basic data -/

/-- Go `[]byte`. -/
abbrev Bytes := List Nat

/-- Go `string`: an immutable byte sequence. -/
abbrev GoString := List Nat

/-- The bytes of an ASCII literal. -/
def lit (s : String) : GoString := s.toList.map Char.toNat

/-- Result of Go code that may panic. -/
inductive Outcome (α : Type) where
  | ret (a : α)
  | panic
deriving DecidableEq, Repr

/-! ## Publish outcomes and the await loop (`pubsub_output.go`, lines 148-170) -/

/-- Status codes of `google.golang.org/grpc/codes`. -/
inductive Code where
  | OK | Canceled | Unknown | InvalidArgument | DeadlineExceeded | NotFound | AlreadyExists
  | PermissionDenied | ResourceExhausted | FailedPrecondition | Aborted | OutOfRange
  | Unimplemented | Internal | Unavailable | DataLoss | Unauthenticated
deriving DecidableEq, Repr

/-- Go `error` values, as far as the plugin can tell them apart: the two sentinel errors of
package `context`, the sentinel `io.EOF`, an error that carries a gRPC status, and any other error value. -/
inductive GoError where
  | contextDeadlineExceeded
  | contextCanceled
  | ioEOF
  | grpcStatus (c : Code)
  | plain (msg : GoString)
deriving DecidableEq, Repr

/-- The library function `status.FromError` on a non-nil error: the status code and `ok`.
Only an error that carries a gRPC status gives `ok = true`; everything else (the `context`
sentinels included) gives code `Unknown` and `ok = false`. -/
def statusFromError : GoError → Code × Bool
  | .grpcStatus c => (c, true)
  | _ => (.Unknown, false)

/-- Return codes of `github.com/fluent/fluent-bit-go/output`. -/
inductive FLBCode where
  | FLB_ERROR
  | FLB_OK
  | FLB_RETRY
deriving DecidableEq, Repr

open FLBCode

/-- Numeric value of a return code in the host ABI. -/
def FLBCode.toInt : FLBCode → Int
  | FLB_ERROR => 0
  | FLB_OK => 1
  | FLB_RETRY => 2

/-- Body of `if err != nil { ... }` in the await loop: every branch returns. -/
def classifyError (err : GoError) : FLBCode :=
  if err = .contextDeadlineExceeded then FLB_RETRY
  else
    match statusFromError err with
    | (_, false) => FLB_ERROR
    | (code, true) =>
      match code with
      | .DeadlineExceeded | .Internal | .Unavailable => FLB_RETRY
      | _ => FLB_ERROR

/-- The await loop of `FLBPluginFlushCtx`: `rb` holds, in submission order, the error with
which each publish handle resolves (`none` for a nil error). -/
def awaitAll : List (Option GoError) → FLBCode
  | [] => FLB_OK
  | none :: rb => awaitAll rb
  | some err :: _ => classifyError err

/-- Disposition one handle contributes: `FLB_OK` without error, else its classification. -/
def handleDisposition : Option GoError → FLBCode
  | none => FLB_OK
  | some err => classifyError err

/-- Severity order of the dispositions: Fatal above RetryRequested above Accepted. -/
def severity : FLBCode → Nat
  | FLB_OK => 0
  | FLB_RETRY => 1
  | FLB_ERROR => 2

/-- The more severe of two dispositions. -/
def worse (a b : FLBCode) : FLBCode := if severity a < severity b then b else a

/-- The most severe disposition of a list (`FLB_OK` for the empty list). -/
def mostSevere (ds : List FLBCode) : FLBCode := ds.foldr worse FLB_OK

/-- All failing handles of the batch have one and the same classification. -/
def uniformFailures (rb : List (Option GoError)) : Prop :=
  ∀ e₁ e₂, some e₁ ∈ rb → some e₂ ∈ rb → classifyError e₁ = classifyError e₂

/-! ## Timestamps (`plugin/records.go`, lines 38-49) -/

/-- A `time.Time` instant: whole seconds since the Unix epoch and the nanoseconds within the
second (`0 ≤ nsec < 10^9`). Location and monotonic reading are not modelled. -/
structure Time where
  sec : Int
  nsec : Int
deriving DecidableEq, Repr

/-- The zero value `time.Time{}`: January 1 of year 1, 00:00:00 UTC. -/
def Time.zero : Time := ⟨-62135596800, 0⟩

/-- The library function `time.Unix(sec, nsec)`: `nsec` is a number of NANOSECONDS and may lie
outside `[0, 999999999]`, in which case it is carried into the seconds. The division is Go's
truncating one. -/
def timeUnix (sec nsec : Int) : Time :=
  if nsec < 0 ∨ nsec ≥ 1000000000 then
    let n := Int.tdiv nsec 1000000000
    let sec := sec + n
    let nsec := nsec - n * 1000000000
    if nsec < 0 then ⟨sec - 1, nsec + 1000000000⟩ else ⟨sec, nsec⟩
  else ⟨sec, nsec⟩

/-- Two's complement wrap-around of `int64` arithmetic. -/
def wrapInt64 (x : Int) : Int := (x + 9223372036854775808) % 18446744073709551616 - 9223372036854775808

/-- The library method `Time.UnixMicro`: `unixSec*1e6 + nsec/1e3` in `int64` arithmetic. -/
def Time.UnixMicro (t : Time) : Int := wrapInt64 (t.sec * 1000000 + t.nsec / 1000)

/-- The library function `binary.BigEndian.Uint32`: panics on fewer than 4 bytes. -/
def bigEndianUint32 : Bytes → Outcome Nat
  | b0 :: b1 :: b2 :: b3 :: _ =>
    .ret (b3 % 256 + (b2 % 256) * 2 ^ 8 + (b1 % 256) * 2 ^ 16 + (b0 % 256) * 2 ^ 24)
  | _ => .panic

/-- Method `FLBTime.ReadExt`: the decoded time, or a panic when the payload is too short. -/
def ReadExt (b : Bytes) : Outcome Time :=
  match bigEndianUint32 b with
  | .panic => .panic
  | .ret sec =>
    if b.length < 4 then .panic
    else
      match bigEndianUint32 (b.drop 4) with
      | .panic => .panic
      | .ret usec => .ret (timeUnix (sec : Int) (usec : Int))

/-- Big-endian encoding of a 32-bit value in 4 bytes. -/
def be32 (n : Nat) : Bytes := [n / 2 ^ 24 % 256, n / 2 ^ 16 % 256, n / 2 ^ 8 % 256, n % 256]

/-! ## Decoded values and records (`plugin/records.go`, lines 72-110) -/

/-- Values the MsgPack decoder stores in an `interface{}`, and the values built from them:
`mapII` is `map[interface{}]interface{}`, `mapSI` is `map[string]interface{}`, `slice` is
`[]interface{}`, `flbTime` is an `FLBTime` (extension tag 0), `rawExt` an extension value of
another tag, `float` a `float64` given by its bits, `int` an `int64` or `uint64`. -/
inductive Val where
  | null
  | bool (b : Bool)
  | int (i : Int)
  | float (bits : Nat)
  | str (s : GoString)
  | bytes (b : Bytes)
  | flbTime (t : Time)
  | rawExt (tag : Nat) (data : Bytes)
  | slice (xs : List Val)
  | mapII (kvs : List (Val × Val))
  | mapSI (kvs : List (GoString × Val))

/-- A `map[string]interface{}`. -/
abbrev Fields := List (GoString × Val)

/-- Map lookup `m[k]` with the `ok` flag: the first entry of key `k`. -/
def mapGet {β : Type} : List (GoString × β) → GoString → Option β
  | [], _ => none
  | (k', v) :: rest, k => if k' = k then some v else mapGet rest k

/-- Map assignment `m[k] = v`: replaces the entry of `k`, or adds one. -/
def mapSet {β : Type} : List (GoString × β) → GoString → β → List (GoString × β)
  | [], k, v => [(k, v)]
  | (k', v') :: rest, k, v => if k' = k then (k, v) :: rest else (k', v') :: mapSet rest k v

/-- The builtin `delete(m, k)`. -/
def mapDelete {β : Type} (m : List (GoString × β)) (k : GoString) : List (GoString × β) :=
  m.filter (fun kv => kv.1 ≠ k)

mutual
/-- The `for k, v := range record` loop of `makeJSONMap`, filling `jsonMap`. -/
def makeJSONMap.loop : List (Val × Val) → Fields → Outcome Fields
  | [], jsonMap => .ret jsonMap
  | kv :: rest, jsonMap =>
    match makeJSONMap.entry kv with
    | .panic => .panic
    | .ret (k, v) => makeJSONMap.loop rest (mapSet jsonMap k v)
/-- One iteration: the value to store and the type assertion `k.(string)`, which panics on
a key that is not a string. -/
def makeJSONMap.entry : Val × Val → Outcome (GoString × Val)
  | (k, v) =>
    match makeJSONMap.value v with
    | .panic => .panic
    | .ret v' =>
      match k with
      | .str ks => .ret (ks, v')
      | _ => .panic
/-- The type switch on the value: `[]byte` becomes a string of the same bytes, a nested
`map[interface{}]interface{}` is converted recursively, anything else is kept. -/
def makeJSONMap.value : Val → Outcome Val
  | .bytes t => .ret (.str t)
  | .mapII t =>
    match makeJSONMap.loop t [] with
    | .panic => .panic
    | .ret value => .ret (.mapSI value)
  | t => .ret t
end

/-- Function `makeJSONMap`: starts from an empty `jsonMap`. -/
def makeJSONMap (record : List (Val × Val)) : Outcome Fields := makeJSONMap.loop record []

/-- The value `makeJSONMap` stores for a value `v` (`v` itself if the conversion panics). -/
def storedValue (v : Val) : Val :=
  match makeJSONMap.value v with
  | .ret v' => v'
  | .panic => v

/-- The tests `reflect.ValueOf(m).Kind() == reflect.Slice` and `Len()`: `[]interface{}` and `[]byte` are
the decoded values of kind slice. -/
def sliceLen : Val → Option Nat
  | .slice xs => some xs.length
  | .bytes b => some b.length
  | _ => none

/-- The call `slice.Index(i).Interface()` for a value of kind slice; an element of a `[]byte` is a `uint8`,
here an integer value. -/
def sliceIndex : Val → Nat → Option Val
  | .slice xs, i => xs.get? i
  | .bytes b, i => (b.get? i).map (fun x => Val.int x)
  | _, _ => none

/-- The part of `ReadRecord` after a successful `Decode(&m)`: an error for a value that is not
a slice of length 2, a panic when a type assertion on an element fails. -/
def readUnit (m : Val) : Outcome (Except GoError (Time × Fields)) :=
  if sliceLen m ≠ some 2 then .ret (.error (.plain (lit "unexpected or malformed data")))
  else
    match sliceIndex m 0 with
    | some (.flbTime ts) =>
      match sliceIndex m 1 with
      | some (.mapII kvs) =>
        match makeJSONMap kvs with
        | .panic => .panic
        | .ret mapData => .ret (.ok (ts, mapData))
      | _ => .panic
    | _ => .panic

/-- The record reader over a buffer: the MsgPack values not yet decoded. Buffers that are not a
sequence of complete MsgPack values are outside this model. -/
structure FLBRecordReader where
  units : List Val

/-- Method `FLBRecordReader.ReadRecord`: `io.EOF` at the end of the buffer, else the next unit. An error
result stands for `(time.Time{}, nil, err)`. -/
def ReadRecord (r : FLBRecordReader) : Outcome (Except GoError (Time × Fields)) × FLBRecordReader :=
  match r.units with
  | [] => (.ret (.error .ioEOF), r)
  | m :: rest => (readUnit m, ⟨rest⟩)

mutual
/-- Keys are strings at every mapping level that the conversion visits: the level of a
mapping and, recursively, of every mapping that is the value of an entry. -/
def stringKeyed : Val → Bool
  | .mapII kvs => stringKeyed.entries kvs
  | _ => true
/-- All entries have a string key and a string-keyed value. -/
def stringKeyed.entries : List (Val × Val) → Bool
  | [] => true
  | (k, v) :: rest =>
    (match k with | .str _ => true | _ => false) && stringKeyed v && stringKeyed.entries rest
end

/-- The string of a key that is one, the empty string otherwise. -/
def keyString : Val → GoString
  | .str s => s
  | _ => []

/-! ## Message building (`plugin/plugin.go`, lines 78-99) -/

/-- The fields of `OutputPlugin` that `CreateMessage` and the flush read. -/
structure OutputPlugin where
  ID : Nat
  TSField : GoString
  As : List GoString
  KA : Bool
  D : Bool
deriving DecidableEq, Repr

/-- A `pubsub.Message`: attributes and data. -/
structure Message where
  Attributes : List (GoString × GoString)
  Data : Bytes
deriving DecidableEq, Repr

/-- The two standard library functions `CreateMessage` calls: `fmt.Sprint` on one value and
`json.Marshal` on a `map[string]interface{}`. -/
structure GoLib where
  Sprint : Val → GoString
  jsonMarshal : Fields → Except GoError Bytes

/-- The record after the timestamp injection: `record[p.TSField] = ts.UnixMicro()` when
`p.TSField` is not the empty string. -/
def withTimestamp (p : OutputPlugin) (ts : Time) (record : Fields) : Fields :=
  if p.TSField ≠ [] then mapSet record p.TSField (.int ts.UnixMicro) else record

/-- The loop `for _, attrKey := range p.As` on the record and the attributes. -/
def attrLoop (lib : GoLib) (KA : Bool) : List GoString → Fields → List (GoString × GoString) →
    Fields × List (GoString × GoString)
  | [], record, attrs => (record, attrs)
  | attrKey :: rest, record, attrs =>
    match mapGet record attrKey with
    | some attrVal =>
      attrLoop lib KA rest (if !KA then mapDelete record attrKey else record)
        (mapSet attrs attrKey (lib.Sprint attrVal))
    | none => attrLoop lib KA rest record attrs

/-- The record and the attributes of `CreateMessage` when it reaches `json.Marshal`. -/
def CreateMessage.prepare (lib : GoLib) (p : OutputPlugin) (ts : Time) (tag : GoString)
    (record : Fields) : Fields × List (GoString × GoString) :=
  attrLoop lib p.KA p.As (withTimestamp p ts record) [(lit "tag", tag)]

/-- Method `OutputPlugin.CreateMessage`: the message, or the error of `json.Marshal` (with a nil
message). -/
def CreateMessage (lib : GoLib) (p : OutputPlugin) (ts : Time) (tag : GoString)
    (record : Fields) : Except GoError Message :=
  match lib.jsonMarshal (CreateMessage.prepare lib p ts tag record).1 with
  | .error err => .error err
  | .ok j => .ok ⟨(CreateMessage.prepare lib p ts tag record).2, j⟩

/-! ## A reference instance of the library functions

`refLib` follows `fmt.Sprint` and `json.Marshal` on null, booleans, integers, strings of
printable ASCII other than `<`, `>` and `&`, slices and string-keyed maps of these (`Sprint` on
the scalars only), and reports the unsupported-type error
of `json.Marshal` on a `map[interface{}]interface{}` and its unsupported-value error on a float
that is NaN or infinite. Finite floats, timestamps, extension values and byte slices are
outside this fragment: `jsonMarshal` reports an error on them and `Sprint` gives the empty
string. It serves to evaluate concrete inputs; the general theorems hold for every
`GoLib`. -/

/-- Decimal text of an integer. -/
def decimal (i : Int) : GoString := lit (toString i)

/-- Bytewise lexicographic order on strings, the order in which `json.Marshal` emits keys. -/
def bytesLE : GoString → GoString → Bool
  | [], _ => true
  | _ :: _, [] => false
  | a :: as, b :: bs => a < b || (a == b && bytesLE as bs)

/-- Insertion of an encoded member into a list sorted by key. -/
def insertByKey (kv : GoString × Bytes) : List (GoString × Bytes) → List (GoString × Bytes)
  | [] => [kv]
  | x :: xs => if bytesLE kv.1 x.1 then kv :: x :: xs else x :: insertByKey kv xs

/-- Members sorted by key. -/
def sortByKey (l : List (GoString × Bytes)) : List (GoString × Bytes) := l.foldr insertByKey []

/-- A JSON string literal: quotes around the bytes, `"` and `\` escaped. -/
def jsonString (s : GoString) : Bytes :=
  [34] ++ s.flatMap (fun c => if c = 34 then [92, 34] else if c = 92 then [92, 92] else [c]) ++ [34]

/-- Parts joined by commas. -/
def joinComma : List Bytes → Bytes
  | [] => []
  | [x] => x
  | x :: y :: rest => x ++ [44] ++ joinComma (y :: rest)

/-- A JSON object from encoded members, keys sorted. -/
def jsonObject (members : List (GoString × Bytes)) : Bytes :=
  [123] ++ joinComma ((sortByKey members).map (fun kv => jsonString kv.1 ++ [58] ++ kv.2)) ++ [125]

/-- JSON text of a `float64` given by its bits: `json.Marshal` rejects NaN and the infinities
(exponent bits all set) as unsupported values; finite floats are outside the fragment. -/
def jsonFloat (bits : Nat) : Except GoError Bytes :=
  if bits / 2 ^ 52 % 2048 = 2047 then
    if bits % 2 ^ 52 ≠ 0 then .error (.plain (lit "json: unsupported value: NaN"))
    else if bits / 2 ^ 63 % 2 = 1 then .error (.plain (lit "json: unsupported value: -Inf"))
    else .error (.plain (lit "json: unsupported value: +Inf"))
  else .error (.plain (lit "float64: outside the fragment"))

mutual
/-- JSON text of one value. -/
def jsonValue : Val → Except GoError Bytes
  | .null => .ok (lit "null")
  | .bool b => .ok (if b then lit "true" else lit "false")
  | .int i => .ok (decimal i)
  | .str s => .ok (jsonString s)
  | .slice xs =>
    match jsonElems xs with
    | .error e => .error e
    | .ok parts => .ok ([91] ++ joinComma parts ++ [93])
  | .mapSI kvs =>
    match jsonMembers kvs with
    | .error e => .error e
    | .ok members => .ok (jsonObject members)
  | .mapII _ => .error (.plain (lit "json: unsupported type: map[interface \x7b\x7d]interface \x7b\x7d"))
  | .float bits => jsonFloat bits
  | .bytes _ => .error (.plain (lit "[]byte: outside the fragment"))
  | .flbTime _ => .error (.plain (lit "FLBTime: outside the fragment"))
  | .rawExt _ _ => .error (.plain (lit "RawExt: outside the fragment"))
/-- JSON texts of the elements of a slice. -/
def jsonElems : List Val → Except GoError (List Bytes)
  | [] => .ok []
  | x :: xs =>
    match jsonValue x with
    | .error e => .error e
    | .ok j =>
      match jsonElems xs with
      | .error e => .error e
      | .ok js => .ok (j :: js)
/-- Keys and JSON texts of the entries of a map. -/
def jsonMembers : List (GoString × Val) → Except GoError (List (GoString × Bytes))
  | [] => .ok []
  | kv :: rest =>
    match jsonMember kv with
    | .error e => .error e
    | .ok m =>
      match jsonMembers rest with
      | .error e => .error e
      | .ok ms => .ok (m :: ms)
/-- Key and JSON text of one entry. -/
def jsonMember : GoString × Val → Except GoError (GoString × Bytes)
  | (k, v) =>
    match jsonValue v with
    | .error e => .error e
    | .ok j => .ok (k, j)
end

/-- The reference instance. -/
def refLib : GoLib where
  Sprint := fun v =>
    match v with
    | .null => lit "<nil>"
    | .bool b => if b then lit "true" else lit "false"
    | .int i => decimal i
    | .str s => s
    | _ => []
  jsonMarshal := fun record => jsonValue (.mapSI record)

/-! ## The decoding loop of a flush (`pubsub_output.go`, lines 127-146) -/

/-- The library method `(*pubsub.Topic).Publish` as `p.Publish(reqCtx, msg)` calls it: a handle,
given here by the message it stands for; with a nil `msg` the method reads a field through
the nil pointer and panics. -/
def Publish : Option Message → Outcome (Option Message)
  | none => .panic
  | some msg => .ret (some msg)

/-- The decoding loop of `FLBPluginFlushCtx` over the units of the buffer: `rb` collects, in
order, the handles that `p.Publish(reqCtx, msg)` returns. After an error of `CreateMessage`
the loop logs and goes on to the `Publish` call with the nil `msg`. -/
def decodeLoop (lib : GoLib) (p : OutputPlugin) (tag : GoString) :
    List Val → List (Option Message) → Outcome (List (Option Message))
  | [], rb => .ret rb
  | m :: rest, rb =>
    match readUnit m with
    | .panic => .panic
    | .ret (.error _) => decodeLoop lib p tag rest rb
    | .ret (.ok (ts, record)) =>
      match Publish (match CreateMessage lib p ts tag record with
          | .error _ => none
          | .ok msg => some msg) with
      | .panic => .panic
      | .ret handle => decodeLoop lib p tag rest (rb ++ [handle])

/-! ## The flush as a whole (`pubsub_output.go`, lines 115-171) -/

/-- The function `FLBPluginFlushCtx` over the units of the buffer: the decoding loop, then the
await loop over the handles. `transport` gives, for the sequence of `Publish` arguments, the
error with which each returned handle resolves. -/
def FLBPluginFlushCtx (lib : GoLib) (p : OutputPlugin)
    (transport : List (Option Message) → List (Option GoError)) (tag : GoString)
    (units : List Val) : Outcome FLBCode :=
  match decodeLoop lib p tag units [] with
  | .panic => .panic
  | .ret rb => .ret (awaitAll (transport rb))

/-- The message built from a unit: the result of `CreateMessage` on the record that
`ReadRecord` returns for it, if both succeed. -/
def builtMessage (lib : GoLib) (p : OutputPlugin) (tag : GoString) (m : Val) : Option Message :=
  match readUnit m with
  | .ret (.ok (ts, record)) =>
    match CreateMessage lib p ts tag record with
    | .ok msg => some msg
    | .error _ => none
  | _ => none

/-- A unit of wrong arity: a sequence whose length is not 2. -/
def wrongArity : Val → Bool
  | .slice xs => xs.length != 2
  | _ => false

/-! ## Configuration store (`plugin/configstore.go`) -/

/-- The value `rv` handed to `logGetKey`, by its dynamic type. -/
inductive ConfigValue where
  | bool (b : Bool)
  | int (i : Int)
  | str (s : GoString)
  | strs (ss : List GoString)
  | dur (d : Int)
deriving DecidableEq, Repr

/-- The dictionary logged under `configkey` and the message of the log line. -/
structure ConfigKeyEvent where
  name : GoString
  found : Bool
  value : Option ConfigValue
  msg : GoString
deriving DecidableEq, Repr

/-- The configuration store: `getKey` is `configKeyGet(f.ctx, name)` (the empty string for a key
that is not set), `debugEnabled` tells whether the debug level of the logger `f.l` is on. -/
structure FLBConfigStore where
  debugEnabled : Bool
  getKey : GoString → GoString

/-- Whether `s` starts with the bytes `pre`. -/
def startsWith : GoString → GoString → Bool
  | _, [] => true
  | [], _ :: _ => false
  | b :: s, c :: pre => b == c && startsWith s pre

/-- Byte sequences that a lower-case letter of the pattern matches under the flag `i`: the letter,
its upper-case form and the other characters of its case-folding orbit (the Kelvin sign for
`k`, the long s for `s`), in UTF-8. -/
def foldAlternatives (c : Nat) : List GoString :=
  [[c], [c - 32]] ++
    (if c = 107 then [[226, 132, 170]] else if c = 115 then [[197, 191]] else [])

/-- Whether the word matches case-insensitively at the start of `s`. -/
def matchWord : List Nat → GoString → Bool
  | [], _ => true
  | c :: cs, s => (foldAlternatives c).any (fun alt => startsWith s alt && matchWord cs (s.drop alt.length))

/-- Whether one of the words matches at some position of `s`. -/
def matchAnywhere (words : List (List Nat)) : GoString → Bool
  | [] => words.any (fun w => matchWord w [])
  | b :: s => words.any (fun w => matchWord w (b :: s)) || matchAnywhere words s

/-- The call `sn.Match([]byte(n))` for the regular expression `(?i:pass|secret|key|hash)`. -/
def snMatch (n : GoString) : Bool :=
  matchAnywhere [lit "pass", lit "secret", lit "key", lit "hash"] n

/-- Go `bool`. -/
abbrev GoBool := Bool

/-- Method `FLBConfigStore.logGetKey`: the event logged at debug level, none when that level is
off. -/
def FLBConfigStore.logGetKey (f : FLBConfigStore) (n : GoString) (rv : ConfigValue) (ok : Bool) :
    Option ConfigKeyEvent :=
  if !f.debugEnabled then none
  else if ok then
    if snMatch n then some ⟨n, ok, some (.str (lit "********")), lit "found config key"⟩
    else some ⟨n, ok, some rv, lit "found config key"⟩
  else some ⟨n, ok, none, lit "did not find config key"⟩

/-- The library function `strconv.ParseBool`: the value and the error. -/
def parseBool (str : GoString) : Bool × Option GoError :=
  if str ∈ [lit "1", lit "t", lit "T", lit "TRUE", lit "true", lit "True"] then (true, none)
  else if str ∈ [lit "0", lit "f", lit "F", lit "FALSE", lit "false", lit "False"] then
    (false, none)
  else (false, some (.plain (lit "strconv.ParseBool: invalid syntax")))

/-- Method `FLBConfigStore.Bool`: the value, whether it was found, and the logged event. -/
def FLBConfigStore.Bool (f : FLBConfigStore) (name : GoString) :
    (GoBool × GoBool) × Option ConfigKeyEvent :=
  let sv := f.getKey name
  let (b, err) := parseBool sv
  let ok := err.isNone && sv != []
  ((b, ok), f.logGetKey name (.bool b) ok)

/-- Method `FLBConfigStore.String`: the value, whether it was found, and the logged event. -/
def FLBConfigStore.String (f : FLBConfigStore) (name : GoString) :
    (GoString × GoBool) × Option ConfigKeyEvent :=
  let sv := f.getKey name
  let ok := sv != []
  ((sv, ok), f.logGetKey name (.str sv) ok)

/-- The first-byte table of `unicode/utf8`: for a leading byte, the width of the encoding and
the accepted range of the second byte. -/
def utf8First (b0 : Nat) : Option (Nat × Nat × Nat) :=
  if 194 ≤ b0 ∧ b0 ≤ 223 then some (2, 128, 191)
  else if b0 = 224 then some (3, 160, 191)
  else if (225 ≤ b0 ∧ b0 ≤ 236) ∨ b0 = 238 ∨ b0 = 239 then some (3, 128, 191)
  else if b0 = 237 then some (3, 128, 159)
  else if b0 = 240 then some (4, 144, 191)
  else if 241 ≤ b0 ∧ b0 ≤ 243 then some (4, 128, 191)
  else if b0 = 244 then some (4, 128, 143)
  else none

/-- The library function `utf8.DecodeRuneInString`: the rune at the start of `s` and its width in
bytes; an invalid or incomplete encoding gives `U+FFFD` and width 1. -/
def decodeRune : GoString → Nat × Nat
  | [] => (65533, 0)
  | b0 :: rest =>
    if b0 < 128 then (b0, 1)
    else
      match utf8First b0 with
      | none => (65533, 1)
      | some (size, lo, hi) =>
        match rest with
        | [] => (65533, 1)
        | b1 :: rest1 =>
          if b1 < lo ∨ hi < b1 then (65533, 1)
          else if size = 2 then ((b0 % 32) * 64 + b1 % 64, 2)
          else
            match rest1 with
            | [] => (65533, 1)
            | b2 :: rest2 =>
              if b2 < 128 ∨ 191 < b2 then (65533, 1)
              else if size = 3 then ((b0 % 16) * 4096 + (b1 % 64) * 64 + b2 % 64, 3)
              else
                match rest2 with
                | [] => (65533, 1)
                | b3 :: _ =>
                  if b3 < 128 ∨ 191 < b3 then (65533, 1)
                  else ((b0 % 8) * 262144 + (b1 % 64) * 4096 + (b2 % 64) * 64 + b3 % 64, 4)

/-- The characters of `s` as `for _, rune := range s` yields them, each with its bytes; `fuel`
bounds the number of characters. -/
def decodeRunes.go : Nat → GoString → List (Nat × GoString)
  | 0, _ => []
  | _ + 1, [] => []
  | fuel + 1, b :: s =>
    ((decodeRune (b :: s)).1, (b :: s).take (decodeRune (b :: s)).2) ::
      decodeRunes.go fuel ((b :: s).drop (decodeRune (b :: s)).2)

/-- The characters of `s`: the length of `s` is enough fuel, a character takes a byte or more. -/
def decodeRunes (s : GoString) : List (Nat × GoString) := decodeRunes.go s.length s

/-- The library function `unicode.IsSpace`. -/
def unicodeIsSpace (r : Nat) : Bool :=
  (9 ≤ r && r ≤ 13) || r == 32 || r == 133 || r == 160 || r == 5760 ||
    (8192 ≤ r && r ≤ 8202) || r == 8232 || r == 8233 || r == 8239 || r == 8287 || r == 12288

/-- The closure `spt` of `Strings`: white space or a comma. -/
def spt (c : Nat) : Bool := unicodeIsSpace c || c == 44

/-- The library function `strings.FieldsFunc` over the characters of the string: `start` holds
the bytes of the field being read, if one is. -/
def fieldsFunc (f : Nat → Bool) : List (Nat × GoString) → Option GoString → List GoString
  | [], none => []
  | [], some cur => [cur]
  | (r, bs) :: rest, start =>
    if f r then
      match start with
      | some cur => cur :: fieldsFunc f rest none
      | none => fieldsFunc f rest none
    else
      match start with
      | some cur => fieldsFunc f rest (some (cur ++ bs))
      | none => fieldsFunc f rest (some bs)

/-- Method `FLBConfigStore.Strings`: the fields, whether one was found, and the logged event. -/
def FLBConfigStore.Strings (f : FLBConfigStore) (name : GoString) :
    (List GoString × GoBool) × Option ConfigKeyEvent :=
  let sv := f.getKey name
  let ss := fieldsFunc spt (decodeRunes sv) none
  let ok := decide (ss.length > 0)
  ((ss, ok), f.logGetKey name (.strs ss) ok)

/-- The characters `cs` split into the fields `fs`: `cs` is made of the fields, in order, each a
non-empty run of characters that are not separators, with separators only before, between and
after them, and at least one separator between two fields. -/
inductive IsFieldSplit (sep : Nat → Bool) : List (Nat × GoString) → List GoString → Prop where
  | done (cs : List (Nat × GoString)) (h : ∀ c ∈ cs, sep c.1 = true) : IsFieldSplit sep cs []
  | field (gap run rest : List (Nat × GoString)) (fs : List GoString)
      (hgap : ∀ c ∈ gap, sep c.1 = true) (hne : run ≠ [])
      (hrun : ∀ c ∈ run, sep c.1 = false)
      (hrest : rest = [] ∨ ∃ c rest', rest = c :: rest' ∧ sep c.1 = true)
      (hfs : IsFieldSplit sep rest fs) :
      IsFieldSplit sep (gap ++ run ++ rest) (run.flatMap (fun c => c.2) :: fs)

/-! ## Plugin configuration (`plugin/config.go`, lines 40-64) -/

/-- The fields of `pubsub.PublishSettings` that the plugin sets. -/
structure PublishSettings where
  DelayThreshold : Int
  Timeout : Int
  ByteThreshold : Int
  CountThreshold : Int
deriving DecidableEq, Repr

/-- The structure `OutputPluginConfig`. -/
structure OutputPluginConfig where
  ID : Nat
  PID : GoString
  TID : GoString
  Crds : GoString
  TSField : GoString
  As : List GoString
  KA : Bool
  PS : PublishSettings
  D : Bool
deriving DecidableEq, Repr

/-- Method `OutputPluginConfig.Validate`: the configuration after the call and the returned
error. The error of `fmt.Errorf` is given by its message. -/
def OutputPluginConfig.Validate (c : OutputPluginConfig) : OutputPluginConfig × Option GoError :=
  if c.PID = [] then (c, some (.plain (lit "gcp_project_id" ++ lit " is a required parameter")))
  else if c.TID = [] then (c, some (.plain (lit "topic_id" ++ lit " is a required parameter")))
  else (c, none)

/-! ## JSON-safe trees and the first failing handle -/

mutual
/-- A value is JSON-safe when no byte sequence and no `map[interface{}]interface{}` is in it at
any depth, inside sequences and string-keyed mappings too. -/
def jsonSafe : Val → Bool
  | .bytes _ => false
  | .mapII _ => false
  | .slice xs => jsonSafe.elems xs
  | .mapSI kvs => jsonSafe.fields kvs
  | _ => true
/-- All elements of a sequence are JSON-safe. -/
def jsonSafe.elems : List Val → Bool
  | [] => true
  | x :: xs => jsonSafe x && jsonSafe.elems xs
/-- All values of a string-keyed mapping are JSON-safe. -/
def jsonSafe.fields : List (GoString × Val) → Bool
  | [] => true
  | (_, v) :: rest => jsonSafe v && jsonSafe.fields rest
end

/-- The error of the first handle, in submission order, that resolved with one. -/
def firstFailure : List (Option GoError) → Option GoError
  | [] => none
  | some err :: _ => some err
  | none :: rb => firstFailure rb

/-- The classification of the first failing handle, `FLB_OK` when no handle fails. -/
def firstFailureDisposition (rb : List (Option GoError)) : FLBCode :=
  match firstFailure rb with
  | some err => classifyError err
  | none => FLB_OK

/-! ## Plugin instances (`pubsub_output.go`, lines 42-93; `plugin/config.go`, lines 66-122;
`plugin/plugin.go`, lines 52-75) -/

/-- The interface `ConfigStore`: each method gives the value and whether it was found. -/
structure ConfigStore where
  Bool : GoString → GoBool × GoBool
  Duration : GoString → Int × GoBool
  Int : GoString → Int × GoBool
  String : GoString → GoString × GoBool
  Strings : GoString → List GoString × GoBool

/-- The function `BuildPluginConfig`; `defaults` is `pubsub.DefaultPublishSettings`, a duration
is a number of nanoseconds. -/
def BuildPluginConfig (id : Nat) (cs : ConfigStore) (defaults : PublishSettings) :
    OutputPluginConfig :=
  ⟨id,
    (cs.String (lit "gcp_project_id")).1,
    (cs.String (lit "topic_id")).1,
    (cs.String (lit "credentials_file")).1,
    (cs.String (lit "timestamp_field")).1,
    (cs.Strings (lit "attribute_fields")).1,
    (cs.Bool (lit "keep_attribute_fields")).1,
    ⟨if (cs.Duration (lit "publish_delay_threshold")).2 then
        (cs.Duration (lit "publish_delay_threshold")).1
      else 1000000000,
      if (cs.Duration (lit "publish_timeout")).2 then (cs.Duration (lit "publish_timeout")).1
      else defaults.Timeout,
      if (cs.Int (lit "publish_byte_threshold")).2 then (cs.Int (lit "publish_byte_threshold")).1
      else defaults.ByteThreshold,
      if (cs.Int (lit "publish_count_threshold")).2 then
        (cs.Int (lit "publish_count_threshold")).1
      else defaults.CountThreshold⟩,
    (cs.Bool (lit "debug")).1⟩

/-- What the services outside the plugin answer during one initialisation: the error of
`pubsub.NewClient` (none on success), the result of `topic.Exists`, and the error of
`SetBytesExt` in `NewFLBRecordReader` (none on success). -/
structure InitEnv where
  newClient : Option GoError
  topicExists : Except GoError GoBool
  newReader : Option GoError

/-- Method `OutputPluginConfig.createClient`: the error, none when the client is created. -/
def OutputPluginConfig.createClient (_c : OutputPluginConfig) (env : InitEnv) : Option GoError :=
  env.newClient

/-- Method `OutputPluginConfig.fetchTopic`: the error, none when the topic exists. The error of
`errors.Errorf` is given by the words of its message. -/
def OutputPluginConfig.fetchTopic (_c : OutputPluginConfig) (env : InitEnv) : Option GoError :=
  match env.topicExists with
  | .error err => some err
  | .ok false => some (.plain (lit "topic does not exist in project"))
  | .ok true => none

/-- The function `NewPluginFromConfig`: the plugin, or the error of the step that failed; a
wrapped error is given by the words that `fmt.Errorf` puts before it. The reader and the
topic of the plugin are handles that the model leaves out. -/
def NewPluginFromConfig (config : OutputPluginConfig) (env : InitEnv) :
    Except GoError OutputPlugin :=
  match config.createClient env with
  | some _ => .error (.plain (lit "unable to create pubsub.Client"))
  | none =>
    match config.fetchTopic env with
    | some _ => .error (.plain (lit "unable to access pubsub.Topic"))
    | none =>
      match env.newReader with
      | some _ => .error (.plain (lit "unable to create record reader"))
      | none => .ok ⟨config.ID, config.TSField, config.As, config.KA, config.D⟩

/-- The state around `addPluginInstance`: the table `pluginInstances` and, for every host
context (a pointer, here a number), the id that `FLBPluginSetContext` stored in it, none
when nothing was stored. -/
structure PluginState where
  pluginInstances : List OutputPlugin
  context : Nat → Option Nat

/-- The state at program start: the table is nil and no context holds an id. -/
def PluginState.initial : PluginState := ⟨[], fun _ => none⟩

/-- The function `addPluginInstance`: the state after the call and the returned error. The id is
stored in the context before the plugin is created; the table grows on success only. -/
def addPluginInstance (s : PluginState) (ctx : Nat) (cs : ConfigStore)
    (defaults : PublishSettings) (env : InitEnv) : PluginState × Option GoError :=
  let id := s.pluginInstances.length
  let context := fun c => if c = ctx then some id else s.context c
  let cfg := BuildPluginConfig id cs defaults
  match NewPluginFromConfig cfg env with
  | .error err => (⟨s.pluginInstances, context⟩, some err)
  | .ok inst => (⟨s.pluginInstances ++ [inst], context⟩, none)

/-- The function `getPluginInstance`: the type assertion on the stored id and the indexing both
panic when they fail. -/
def getPluginInstance (s : PluginState) (ctx : Nat) : Outcome OutputPlugin :=
  match s.context ctx with
  | none => .panic
  | some pluginID =>
    match s.pluginInstances[pluginID]? with
    | none => .panic
    | some p => .ret p

/-- Every entry of the table holds a plugin whose ID is its index. -/
def IDsMatch (table : List OutputPlugin) : Prop :=
  ∀ (i : Nat) (p : OutputPlugin), table[i]? = some p → p.ID = i

/-- One call of `addPluginInstance`: the context, its configuration, and the answers of the
outside services. -/
structure InitCall where
  ctx : Nat
  cs : ConfigStore
  env : InitEnv

/-- The state after a sequence of `addPluginInstance` calls. -/
def runInits (defaults : PublishSettings) : PluginState → List InitCall → PluginState
  | s, [] => s
  | s, call :: calls =>
    runInits defaults (addPluginInstance s call.ctx call.cs defaults call.env).1 calls

/-! ## Lemmas on the await loop -/

theorem classifyError_ne_ok (err : GoError) : classifyError err ≠ FLB_OK := by
  unfold classifyError
  split
  · decide
  · split
    · decide
    · split <;> decide

theorem severity_worse (a b : FLBCode) : severity (worse a b) = max (severity a) (severity b) := by
  cases a <;> cases b <;> decide

theorem severity_injective {a b : FLBCode} (h : severity a = severity b) : a = b := by
  cases a <;> cases b <;> first | rfl | (exact absurd h (by decide))

theorem mostSevere_cons (d : FLBCode) (ds : List FLBCode) :
    mostSevere (d :: ds) = worse d (mostSevere ds) := rfl

theorem severity_le_mostSevere {d : FLBCode} {ds : List FLBCode} (h : d ∈ ds) :
    severity d ≤ severity (mostSevere ds) := by
  induction ds with
  | nil => cases h
  | cons x xs ih =>
    rw [mostSevere_cons, severity_worse]
    rcases List.mem_cons.mp h with rfl | h
    · exact le_max_left _ _
    · exact le_trans (ih h) (le_max_right _ _)

/-- The loop returns the classification of some failing handle, or `FLB_OK` when none fails. -/
theorem awaitAll_cases (rb : List (Option GoError)) :
    (awaitAll rb = FLB_OK ∧ ∀ r ∈ rb, r = none) ∨
      ∃ e, some e ∈ rb ∧ awaitAll rb = classifyError e := by
  induction rb with
  | nil => exact Or.inl ⟨rfl, by simp⟩
  | cons r rb ih =>
    cases r with
    | none =>
      rcases ih with ⟨h, hall⟩ | ⟨e, he, h⟩
      · refine Or.inl ⟨h, ?_⟩
        intro r hr
        rcases List.mem_cons.mp hr with rfl | hr
        · rfl
        · exact hall r hr
      · exact Or.inr ⟨e, List.mem_cons_of_mem _ he, h⟩
    | some e => exact Or.inr ⟨e, List.mem_cons_self _ _, rfl⟩

theorem mostSevere_all_ok (rb : List (Option GoError)) (h : ∀ r ∈ rb, r = none) :
    mostSevere (rb.map handleDisposition) = FLB_OK := by
  induction rb with
  | nil => rfl
  | cons r rb ih =>
    have hr : r = none := h r (List.mem_cons_self _ _)
    subst hr
    have := ih (fun r hr => h r (List.mem_cons_of_mem _ hr))
    simp [mostSevere_cons, handleDisposition, this, worse]

theorem mostSevere_uniform (rb : List (Option GoError)) (e : GoError) (he : some e ∈ rb)
    (h : ∀ e', some e' ∈ rb → classifyError e' = classifyError e) :
    mostSevere (rb.map handleDisposition) = classifyError e := by
  apply severity_injective
  apply le_antisymm
  · clear he
    induction rb with
    | nil => simp [mostSevere, severity]
    | cons r rb ih =>
      have ih := ih (fun e' he' => h e' (List.mem_cons_of_mem _ he'))
      rw [List.map_cons, mostSevere_cons, severity_worse]
      apply max_le _ ih
      cases r with
      | none => simp [handleDisposition, severity]
      | some e' =>
        have := h e' (List.mem_cons_self _ _)
        simp [handleDisposition, this]
  · apply severity_le_mostSevere
    exact List.mem_map.mpr ⟨some e, he, rfl⟩

theorem awaitAll_eq_mostSevere_of_uniform (rb : List (Option GoError))
    (h : uniformFailures rb) : awaitAll rb = mostSevere (rb.map handleDisposition) := by
  rcases awaitAll_cases rb with ⟨hok, hall⟩ | ⟨e, he, hret⟩
  · rw [hok, mostSevere_all_ok rb hall]
  · rw [hret, mostSevere_uniform rb e he (fun e' he' => h e' e he' he)]

theorem mostSevere_perm {ds ds' : List FLBCode} (h : ds.Perm ds') :
    mostSevere ds = mostSevere ds' := by
  induction h with
  | nil => rfl
  | cons x _ ih => simp [mostSevere_cons, ih]
  | swap x y l =>
    simp only [mostSevere_cons]
    generalize mostSevere l = m
    cases x <;> cases y <;> cases m <;> rfl
  | trans _ _ ih₁ ih₂ => exact ih₁.trans ih₂

/-! ## Theorems: publish outcome classification -/

/-- C1 (as stated, refuted): a batch whose first handle fails with a retryable status and whose
second handle fails with a non-retryable status returns `FLB_RETRY`, not the most severe
disposition `FLB_ERROR`; with the two handles swapped it returns `FLB_ERROR`. -/
theorem C1_counterexample :
    awaitAll [some (.grpcStatus .Unavailable), some (.grpcStatus .NotFound)] = FLB_RETRY ∧
    mostSevere ([some (.grpcStatus .Unavailable), some (.grpcStatus .NotFound)].map
      handleDisposition) = FLB_ERROR ∧
    awaitAll [some (.grpcStatus .NotFound), some (.grpcStatus .Unavailable)] = FLB_ERROR := by
  decide

/-- C1 (amended): the disposition returned by the await loop is never more severe than the most
severe per-handle disposition; when all failing handles of the batch have the same
classification, it is the most severe per-handle disposition and every permutation of the
batch returns the same disposition. -/
theorem C1_await_most_severe_when_uniform (rb : List (Option GoError)) :
    severity (awaitAll rb) ≤ severity (mostSevere (rb.map handleDisposition)) ∧
    (uniformFailures rb →
      awaitAll rb = mostSevere (rb.map handleDisposition) ∧
      ∀ rb', rb.Perm rb' → awaitAll rb' = awaitAll rb) := by
  constructor
  · rcases awaitAll_cases rb with ⟨hok, _⟩ | ⟨e, he, hret⟩
    · rw [hok]; exact Nat.zero_le _
    · rw [hret]
      exact severity_le_mostSevere (List.mem_map.mpr ⟨some e, he, rfl⟩)
  · intro huni
    have h₁ := awaitAll_eq_mostSevere_of_uniform rb huni
    refine ⟨h₁, ?_⟩
    intro rb' hperm
    have huni' : uniformFailures rb' := fun e₁ e₂ h₁ h₂ =>
      huni e₁ e₂ (hperm.mem_iff.mpr h₁) (hperm.mem_iff.mpr h₂)
    rw [h₁, awaitAll_eq_mostSevere_of_uniform rb' huni']
    exact (mostSevere_perm (hperm.map handleDisposition)).symm

/-- Witness of C1 (amended): two handles failing with retryable statuses and a successful one,
in two orders. -/
theorem C1_await_most_severe_when_uniform_witness :
    uniformFailures [some (.grpcStatus .Unavailable), none, some (.grpcStatus .Internal)] ∧
    awaitAll [some (.grpcStatus .Unavailable), none, some (.grpcStatus .Internal)] =
      mostSevere ([some (.grpcStatus .Unavailable), none, some (.grpcStatus .Internal)].map
        handleDisposition) ∧
    awaitAll [none, some (.grpcStatus .Internal), some (.grpcStatus .Unavailable)] =
      awaitAll [some (.grpcStatus .Unavailable), none, some (.grpcStatus .Internal)] := by
  have huni : uniformFailures
      [some (.grpcStatus .Unavailable), none, some (.grpcStatus .Internal)] := by
    intro e₁ e₂ h₁ h₂
    simp at h₁ h₂
    rcases h₁ with rfl | rfl <;> rcases h₂ with rfl | rfl <;> decide
  have h := (C1_await_most_severe_when_uniform
    [some (.grpcStatus .Unavailable), none, some (.grpcStatus .Internal)]).2 huni
  exact ⟨huni, h.1, h.2 _ (by decide)⟩

/-- C2 (as stated, refuted): a single handle failing with the sentinel
`context.DeadlineExceeded`, from which `status.FromError` extracts no status, gives
`FLB_RETRY`, not `FLB_ERROR`. -/
theorem C2_counterexample :
    (statusFromError .contextDeadlineExceeded).2 = false ∧
    awaitAll [some .contextDeadlineExceeded] = FLB_RETRY ∧
    awaitAll [some .contextDeadlineExceeded] ≠ FLB_ERROR := by
  decide

/-- C2 (amended): for a batch of one failing handle, an error that carries a status gives
`FLB_RETRY` for the codes DeadlineExceeded, Internal and Unavailable and `FLB_ERROR` for every
other code; an error from which no status can be extracted gives `FLB_ERROR`, except the
sentinel `context.DeadlineExceeded`, which gives `FLB_RETRY`. -/
theorem C2_single_failure_classification (err : GoError) :
    awaitAll [some err] =
      match statusFromError err with
      | (code, true) =>
        if code = .DeadlineExceeded ∨ code = .Internal ∨ code = .Unavailable then FLB_RETRY
        else FLB_ERROR
      | (_, false) => if err = .contextDeadlineExceeded then FLB_RETRY else FLB_ERROR := by
  cases err with
  | grpcStatus c => cases c <;> rfl
  | contextDeadlineExceeded => rfl
  | contextCanceled => rfl
  | ioEOF => rfl
  | plain msg => rfl

/-- C3: the await loop returns `FLB_OK` exactly when every handle of the batch (the empty batch
included) resolved without error; a failing handle at any position makes the result
`FLB_RETRY` or `FLB_ERROR`; one successful handle and one handle failing with `Unavailable`
give `FLB_RETRY` in either order. -/
theorem C3_ok_iff_all_succeed (rb : List (Option GoError)) :
    (awaitAll rb = FLB_OK ↔ rb.all Option.isNone = true) ∧
    (∀ (pre post : List (Option GoError)) (err : GoError),
      awaitAll (pre ++ some err :: post) = FLB_RETRY ∨
      awaitAll (pre ++ some err :: post) = FLB_ERROR) ∧
    awaitAll [] = FLB_OK ∧
    awaitAll [none, some (.grpcStatus .Unavailable)] = FLB_RETRY ∧
    awaitAll [some (.grpcStatus .Unavailable), none] = FLB_RETRY := by
  have key : ∀ l : List (Option GoError), awaitAll l = FLB_OK ↔ l.all Option.isNone = true := by
    intro l
    induction l with
    | nil => simp [awaitAll]
    | cons r l ih =>
      cases r with
      | none => simpa [awaitAll] using ih
      | some e => simpa [awaitAll] using classifyError_ne_ok e
  refine ⟨key rb, ?_, rfl, by decide, by decide⟩
  intro pre post err
  have hne : awaitAll (pre ++ some err :: post) ≠ FLB_OK := by
    rw [Ne, key]
    simp
  cases h : awaitAll (pre ++ some err :: post) with
  | FLB_ERROR => exact Or.inr rfl
  | FLB_OK => exact absurd h hne
  | FLB_RETRY => exact Or.inl rfl

/-! ## Lemmas on timestamps -/

theorem bigEndianUint32_be32 (n : Nat) (h : n < 2 ^ 32) (rest : Bytes) :
    bigEndianUint32 (be32 n ++ rest) = .ret n := by
  simp only [be32, List.cons_append, List.nil_append, bigEndianUint32]
  congr 1
  omega

theorem ReadExt_be32 (s u : Nat) (hs : s < 2 ^ 32) (hu : u < 2 ^ 32) :
    ReadExt (be32 s ++ be32 u) = .ret (timeUnix s u) := by
  have h₁ := bigEndianUint32_be32 s hs (be32 u)
  have h₂ := bigEndianUint32_be32 u hu []
  simp only [List.append_nil] at h₂
  have hdrop : (be32 s ++ be32 u).drop 4 = be32 u := by simp [be32]
  have hlen : ¬ (be32 s ++ be32 u).length < 4 := by simp [be32]
  simp only [ReadExt, h₁, hdrop, h₂, hlen, if_false]

theorem timeUnix_nat (s u : Nat) :
    timeUnix s u = ⟨(s : Int) + ((u / 1000000000 : Nat) : Int), ((u % 1000000000 : Nat) : Int)⟩ := by
  unfold timeUnix
  have hq : Int.tdiv (u : Int) 1000000000 = ((u / 1000000000 : Nat) : Int) := by
    rw [Int.tdiv_eq_ediv (Int.ofNat_nonneg u) (by decide)]
    rfl
  by_cases h : (u : Int) < 0 ∨ (u : Int) ≥ 1000000000
  · rw [if_pos h]
    simp only [hq]
    have hr : ¬ ((u : Int) - ((u / 1000000000 : Nat) : Int) * 1000000000 < 0) := by omega
    rw [if_neg hr]
    congr 1
    omega
  · rw [if_neg h]
    congr 1 <;> omega

/-! ## Theorems: timestamp decoding -/

/-- C4 (as stated, refuted): the payload of seconds 1700000000 and second value 500000 decodes to
an instant whose microseconds since the epoch are 1700000000000500, that is 500 microseconds
past the second, not 500000. -/
theorem C4_counterexample :
    ReadExt (be32 1700000000 ++ be32 500000) = .ret ⟨1700000000, 500000⟩ ∧
    Time.UnixMicro ⟨1700000000, 500000⟩ = 1700000000000500 ∧
    Time.UnixMicro ⟨1700000000, 500000⟩ ≠ 1700000000 * 1000000 + 500000 := by
  decide

/-- C4 (amended): an 8-byte payload whose first 4 bytes are the big-endian value `s` and whose
last 4 bytes are the big-endian value `u` decodes to the instant `s` seconds plus `u`
NANOSECONDS after the epoch: its microseconds since the epoch are `s*1000000 + u/1000`
(rounded down); `u = 0` decodes on the second boundary. -/
theorem C4_ReadExt_seconds_nanoseconds (s u : Nat) (hs : s < 2 ^ 32) (hu : u < 2 ^ 32) :
    ∃ t, ReadExt (be32 s ++ be32 u) = .ret t ∧
      t.sec * 1000000000 + t.nsec = (s : Int) * 1000000000 + u ∧
      0 ≤ t.nsec ∧ t.nsec < 1000000000 ∧
      t.UnixMicro = (s : Int) * 1000000 + ((u / 1000 : Nat) : Int) ∧
      (u = 0 → t = ⟨s, 0⟩) := by
  refine ⟨_, ReadExt_be32 s u hs hu, ?_⟩
  rw [timeUnix_nat]
  refine ⟨by simp only; omega, by simp only; omega, by simp only; omega, ?_, ?_⟩
  · simp only [Time.UnixMicro, wrapInt64]
    omega
  · intro h
    subst h
    simp

/-- Witness of C4 (amended): seconds 1700000000 and 500000 nanoseconds. -/
theorem C4_ReadExt_seconds_nanoseconds_witness :
    1700000000 < 2 ^ 32 ∧ 500000 < 2 ^ 32 ∧
    ∃ t, ReadExt (be32 1700000000 ++ be32 500000) = .ret t ∧
      t.sec * 1000000000 + t.nsec = ((1700000000 : Nat) : Int) * 1000000000 + (500000 : Nat) ∧
      0 ≤ t.nsec ∧ t.nsec < 1000000000 ∧
      t.UnixMicro = ((1700000000 : Nat) : Int) * 1000000 + ((500000 / 1000 : Nat) : Int) ∧
      ((500000 : Nat) = 0 → t = ⟨((1700000000 : Nat) : Int), 0⟩) :=
  ⟨by decide, by decide,
    C4_ReadExt_seconds_nanoseconds 1700000000 500000 (by decide) (by decide)⟩

/-! ## Lemmas on maps and on the attribute loop -/

theorem mapGet_mapSet {β : Type} (m : List (GoString × β)) (k k' : GoString) (v : β) :
    mapGet (mapSet m k v) k' = if k = k' then some v else mapGet m k' := by
  induction m with
  | nil => simp [mapSet, mapGet]
  | cons x m ih =>
    obtain ⟨kx, vx⟩ := x
    by_cases hx : kx = k
    · subst hx
      by_cases hk : kx = k' <;> simp [mapSet, mapGet, hk]
    · by_cases hk : kx = k'
      · subst hk
        simp [mapSet, mapGet, hx, Ne.symm hx]
      · simp [mapSet, mapGet, hx, hk, ih]

theorem mapGet_filter_notMem {β : Type} (m : List (GoString × β)) (ks : List GoString)
    (k : GoString) :
    mapGet (m.filter (fun kv => decide (kv.1 ∉ ks))) k = if k ∈ ks then none else mapGet m k := by
  induction m with
  | nil => simp [mapGet]
  | cons x m ih =>
    obtain ⟨kx, vx⟩ := x
    simp only [decide_not] at ih ⊢
    by_cases hx : kx ∈ ks
    · by_cases hk : kx = k
      · subst hk
        simp [List.filter, hx, ih]
      · simp [List.filter, hx, ih, mapGet, hk]
    · by_cases hk : kx = k
      · subst hk
        simp [List.filter, hx, mapGet]
      · simp [List.filter, hx, ih, mapGet, hk]

theorem mapGet_none_keys {β : Type} (m : List (GoString × β)) (k : GoString)
    (h : mapGet m k = none) : ∀ kv ∈ m, kv.1 ≠ k := by
  induction m with
  | nil => simp
  | cons x m ih =>
    obtain ⟨kx, vx⟩ := x
    by_cases hx : kx = k
    · simp [mapGet, hx] at h
    · simp only [mapGet, hx, if_false] at h
      intro kv hkv
      rcases List.mem_cons.mp hkv with rfl | hkv
      · exact hx
      · exact ih h kv hkv

/-- The record after the attribute loop: unchanged with retention, else without the entries
of the configured attribute fields. -/
theorem attrLoop_record (lib : GoLib) (KA : Bool) (As : List GoString) (record : Fields)
    (attrs : List (GoString × GoString)) :
    (attrLoop lib KA As record attrs).1 =
      if KA then record else record.filter (fun kv => decide (kv.1 ∉ As)) := by
  induction As generalizing record attrs with
  | nil => cases KA <;> simp [attrLoop]
  | cons a rest ih =>
    cases hget : mapGet record a with
    | none =>
      simp only [attrLoop, hget, ih]
      cases KA
      · simp only [Bool.false_eq_true, if_false]
        apply List.filter_congr
        intro kv hkv
        have := mapGet_none_keys record a hget kv hkv
        simp [this]
      · rfl
    | some v =>
      simp only [attrLoop, hget, ih]
      cases KA
      · simp only [Bool.not_false, if_true, Bool.false_eq_true, if_false, mapDelete,
          List.filter_filter]
        apply List.filter_congr
        intro kv _
        by_cases h : kv.1 = a <;> simp [h]
      · rfl

/-- The attributes after the attribute loop: a configured field that the record holds has the
stringified value, every other key keeps its attribute. -/
theorem attrLoop_attrs (lib : GoLib) (KA : Bool) (As : List GoString) (record : Fields)
    (attrs : List (GoString × GoString)) (k : GoString) :
    mapGet (attrLoop lib KA As record attrs).2 k =
      match (if k ∈ As then mapGet record k else none) with
      | some v => some (lib.Sprint v)
      | none => mapGet attrs k := by
  induction As generalizing record attrs with
  | nil => simp [attrLoop]
  | cons a rest ih =>
    cases hget : mapGet record a with
    | none =>
      simp only [attrLoop, hget, ih]
      by_cases hk : k = a
      · subst hk
        simp [hget]
      · simp [hk]
    | some v =>
      simp only [attrLoop, hget, ih]
      by_cases hk : k = a
      · subst hk
        cases KA
        · simp [mapDelete, mapGet_mapSet, hget]
          have := mapGet_filter_notMem record [k] k
          simp at this
          simp [this]
        · simp [hget, mapGet_mapSet]
          split <;> simp_all
      · have hd : mapGet (mapDelete record a) k = mapGet record k := by
          have := mapGet_filter_notMem record [a] k
          simp [hk] at this
          simpa [mapDelete] using this
        have hka : ¬ a = k := fun h => hk h.symm
        cases KA <;> simp [hk, hka, hd, mapGet_mapSet]

theorem CreateMessage_ok_iff (lib : GoLib) (p : OutputPlugin) (ts : Time) (tag : GoString)
    (record : Fields) (msg : Message) :
    CreateMessage lib p ts tag record = .ok msg ↔
      lib.jsonMarshal (CreateMessage.prepare lib p ts tag record).1 = .ok msg.Data ∧
      msg.Attributes = (CreateMessage.prepare lib p ts tag record).2 := by
  unfold CreateMessage
  cases h : lib.jsonMarshal (CreateMessage.prepare lib p ts tag record).1 with
  | error e => simp
  | ok j =>
    obtain ⟨a, d⟩ := msg
    simp only [Except.ok.injEq, Message.mk.injEq]
    constructor
    · rintro ⟨rfl, rfl⟩; exact ⟨rfl, rfl⟩
    · rintro ⟨rfl, rfl⟩; exact ⟨rfl, rfl⟩

/-! ## Lemmas on `makeJSONMap` -/

theorem stringKeyed_entries_cons (k v : Val) (rest : List (Val × Val)) :
    stringKeyed.entries ((k, v) :: rest) =
      ((match k with | .str _ => true | _ => false) && stringKeyed v &&
        stringKeyed.entries rest) := by
  simp [stringKeyed.entries]

mutual
/-- On string-keyed entries the loop of `makeJSONMap` does not panic. -/
theorem makeJSONMap_loop_ret : ∀ (l : List (Val × Val)) (acc : Fields),
    stringKeyed.entries l = true → ∃ out, makeJSONMap.loop l acc = .ret out
  | [], acc, _ => ⟨acc, rfl⟩
  | (k, v) :: rest, acc, h => by
    rw [stringKeyed_entries_cons] at h
    simp only [Bool.and_eq_true] at h
    obtain ⟨⟨hk, hv⟩, hrest⟩ := h
    obtain ⟨v', hv'⟩ := makeJSONMap_value_ret v hv
    cases k with
    | str ks =>
      obtain ⟨out, hout⟩ := makeJSONMap_loop_ret rest (mapSet acc ks v') hrest
      exact ⟨out, by simp [makeJSONMap.loop, makeJSONMap.entry, hv', hout]⟩
    | _ => simp at hk
/-- On a string-keyed value the type switch of `makeJSONMap` does not panic. -/
theorem makeJSONMap_value_ret : ∀ (v : Val), stringKeyed v = true →
    ∃ v', makeJSONMap.value v = .ret v'
  | .mapII t, h => by
    have h' : stringKeyed.entries t = true := by simpa [stringKeyed] using h
    obtain ⟨out, hout⟩ := makeJSONMap_loop_ret t [] h'
    exact ⟨.mapSI out, by simp [makeJSONMap.value, hout]⟩
  | .bytes b, _ => ⟨_, rfl⟩
  | .null, _ => ⟨_, rfl⟩
  | .bool _, _ => ⟨_, rfl⟩
  | .int _, _ => ⟨_, rfl⟩
  | .float _, _ => ⟨_, rfl⟩
  | .str _, _ => ⟨_, rfl⟩
  | .flbTime _, _ => ⟨_, rfl⟩
  | .rawExt _ _, _ => ⟨_, rfl⟩
  | .slice _, _ => ⟨_, rfl⟩
  | .mapSI _, _ => ⟨_, rfl⟩
end

theorem mapSet_of_mapGet_none {β : Type} (m : List (GoString × β)) (k : GoString) (v : β)
    (h : mapGet m k = none) : mapSet m k v = m ++ [(k, v)] := by
  induction m with
  | nil => rfl
  | cons x m ih =>
    obtain ⟨kx, vx⟩ := x
    by_cases hx : kx = k
    · simp [mapGet, hx] at h
    · simp only [mapGet, hx, if_false] at h
      simp [mapSet, hx, ih h]

theorem mapGet_append {β : Type} (m m' : List (GoString × β)) (k : GoString) :
    mapGet (m ++ m') k = match mapGet m k with
      | some v => some v
      | none => mapGet m' k := by
  induction m with
  | nil => rfl
  | cons x m ih =>
    obtain ⟨kx, vx⟩ := x
    by_cases hx : kx = k <;> simp [mapGet, hx, ih]

theorem stringKeyed_entries_key (l : List (Val × Val)) (h : stringKeyed.entries l = true) :
    ∀ kv ∈ l, ∃ s, kv.1 = Val.str s := by
  induction l with
  | nil => intro _ hmem; cases hmem
  | cons y l ihl =>
    intro kv hmem
    obtain ⟨ky, vy⟩ := y
    rw [stringKeyed_entries_cons] at h
    simp only [Bool.and_eq_true] at h
    rcases List.mem_cons.mp hmem with rfl | hmem'
    · cases ky with
      | str s => exact ⟨s, rfl⟩
      | _ => simp at h
    · exact ihl h.2 kv hmem'

/-- On string-keyed entries with distinct keys, none of them in `acc`, the loop appends to
`acc` one entry per entry of the record, in order. -/
theorem makeJSONMap_loop_eq (l : List (Val × Val)) : ∀ (acc : Fields),
    stringKeyed.entries l = true → (l.map Prod.fst).Nodup →
    (∀ kv ∈ l, mapGet acc (keyString kv.1) = none) →
    makeJSONMap.loop l acc = .ret (acc ++ l.map (fun kv => (keyString kv.1, storedValue kv.2))) := by
  induction l with
  | nil => intro acc _ _ _; simp [makeJSONMap.loop]
  | cons x l ih =>
    intro acc h hnd hacc
    obtain ⟨k, v⟩ := x
    rw [stringKeyed_entries_cons] at h
    simp only [Bool.and_eq_true] at h
    obtain ⟨⟨hk, hv⟩, hrest⟩ := h
    obtain ⟨v', hv'⟩ := makeJSONMap_value_ret v hv
    have hsv : storedValue v = v' := by simp [storedValue, hv']
    cases k with
    | str ks =>
      have hks : mapGet acc ks = none := by
        simpa [keyString] using hacc (Val.str ks, v) (List.mem_cons_self _ _)
      rw [List.map_cons, List.nodup_cons] at hnd
      have hacc' : ∀ kv ∈ l, mapGet (mapSet acc ks v') (keyString kv.1) = none := by
        intro kv hkv
        rw [mapGet_mapSet]
        have hne : ¬ ks = keyString kv.1 := by
          intro heq
          apply hnd.1
          obtain ⟨s, hs⟩ := stringKeyed_entries_key l hrest kv hkv
          have : kv.1 = Val.str ks := by rw [hs, heq, hs, keyString]
          exact List.mem_map.mpr ⟨kv, hkv, this⟩
        rw [if_neg hne]
        exact hacc kv (List.mem_cons_of_mem _ hkv)
      have := ih (mapSet acc ks v') hrest hnd.2 hacc'
      simp only [makeJSONMap.loop, makeJSONMap.entry, hv', this]
      rw [mapSet_of_mapGet_none acc ks v' hks]
      simp [keyString, hsv]
    | _ => simp at hk

theorem mapGet_map_of_mem (l : List (Val × Val)) (ks : GoString) (v : Val)
    (hnd : (l.map Prod.fst).Nodup) (hstr : stringKeyed.entries l = true)
    (hmem : (Val.str ks, v) ∈ l) :
    mapGet (l.map (fun kv => (keyString kv.1, storedValue kv.2))) ks = some (storedValue v) := by
  induction l with
  | nil => cases hmem
  | cons x l ih =>
    obtain ⟨kx, vx⟩ := x
    rw [List.map_cons, List.nodup_cons] at hnd
    rw [stringKeyed_entries_cons] at hstr
    simp only [Bool.and_eq_true] at hstr
    rcases List.mem_cons.mp hmem with heq | hmem'
    · cases heq
      simp [mapGet, keyString]
    · have hne : kx ≠ Val.str ks := by
        intro heq
        apply hnd.1
        exact List.mem_map.mpr ⟨(Val.str ks, v), hmem', heq.symm⟩
      have hih := ih hnd.2 hstr.2 hmem'
      cases kx with
      | str s =>
        have : ¬ s = ks := fun h => hne (by rw [h])
        simp only [List.map_cons, mapGet, keyString, this, if_false]
        exact hih
      | _ => simp at hstr

/-! ## Theorems: message building -/

/-- C5 (as stated, refuted): with `tag` among the configured attribute fields and a record field
`tag`, the attribute `tag` of the built message is the record's value, not the routing tag. -/
theorem C5_counterexample :
    CreateMessage refLib ⟨0, [], [lit "tag"], false, false⟩ ⟨1700000000, 0⟩ (lit "app.log")
      [(lit "tag", .str (lit "x"))] = .ok ⟨[(lit "tag", lit "x")], lit "\x7b\x7d"⟩ ∧
    mapGet [(lit "tag", lit "x")] (lit "tag") ≠ some (lit "app.log") := by
  constructor
  · rfl
  · decide

/-- C5 (amended): when `CreateMessage` succeeds the attributes contain the key `tag`; its value is
the routing tag unless `tag` is a configured attribute field that the record (after timestamp
injection) holds, in which case it is the stringified value of that field. -/
theorem C5_tag_attribute (lib : GoLib) (p : OutputPlugin) (ts : Time) (tag : GoString)
    (record : Fields) (msg : Message) (h : CreateMessage lib p ts tag record = .ok msg) :
    (∃ v, mapGet msg.Attributes (lit "tag") = some v) ∧
    ((lit "tag" ∉ p.As ∨ mapGet (withTimestamp p ts record) (lit "tag") = none) →
      mapGet msg.Attributes (lit "tag") = some tag) ∧
    (∀ v, lit "tag" ∈ p.As → mapGet (withTimestamp p ts record) (lit "tag") = some v →
      mapGet msg.Attributes (lit "tag") = some (lib.Sprint v)) := by
  have hattrs := ((CreateMessage_ok_iff lib p ts tag record msg).mp h).2
  have key := attrLoop_attrs lib p.KA p.As (withTimestamp p ts record) [(lit "tag", tag)]
    (lit "tag")
  rw [hattrs, CreateMessage.prepare]
  refine ⟨?_, ?_, ?_⟩
  · rw [key]
    split
    · exact ⟨_, rfl⟩
    · exact ⟨tag, by simp [mapGet]⟩
  · intro hcase
    rw [key]
    rcases hcase with hnot | hnone
    · simp [hnot, mapGet]
    · simp [hnone, mapGet]
  · intro v hmem hget
    rw [key]
    simp [hmem, hget]

/-- Witness of C5 (amended): attribute field `user`, record with fields user=a and msg=hi. -/
theorem C5_tag_attribute_witness :
    CreateMessage refLib ⟨0, [], [lit "user"], false, false⟩ ⟨1700000000, 0⟩ (lit "app.log")
        [(lit "user", .str (lit "a")), (lit "msg", .str (lit "hi"))] =
      .ok ⟨[(lit "tag", lit "app.log"), (lit "user", lit "a")], lit "\x7b\"msg\":\"hi\"\x7d"⟩ ∧
    mapGet [(lit "tag", lit "app.log"), (lit "user", lit "a")] (lit "tag") =
      some (lit "app.log") :=
  ⟨rfl,
    (C5_tag_attribute refLib ⟨0, [], [lit "user"], false, false⟩ ⟨1700000000, 0⟩
      (lit "app.log") [(lit "user", .str (lit "a")), (lit "msg", .str (lit "hi"))]
      ⟨[(lit "tag", lit "app.log"), (lit "user", lit "a")], lit "\x7b\"msg\":\"hi\"\x7d"⟩
      rfl).2.1 (Or.inl (by decide))⟩

/-- C7 (defect): a record whose serialisation fails (a field holding the float NaN) is read
without error and `CreateMessage` returns an error and no message; the loop has no
`continue` there, so it calls `Publish` with the nil message, which panics: the flush aborts,
and a well-formed record that follows is never submitted. This holds for every record for
which `CreateMessage` returns an error. -/
theorem C7_publish_called_with_nil_message :
    readUnit (.slice [.flbTime ⟨1700000000, 0⟩,
        .mapII [(.str (lit "x"), .float 9221120237041090560)]]) =
      .ret (.ok (⟨1700000000, 0⟩, [(lit "x", .float 9221120237041090560)])) ∧
    CreateMessage refLib ⟨0, [], [], false, false⟩ ⟨1700000000, 0⟩ (lit "app.log")
        [(lit "x", .float 9221120237041090560)] =
      .error (.plain (lit "json: unsupported value: NaN")) ∧
    decodeLoop refLib ⟨0, [], [], false, false⟩ (lit "app.log")
        [.slice [.flbTime ⟨1700000000, 0⟩,
            .mapII [(.str (lit "x"), .float 9221120237041090560)]],
          .slice [.flbTime ⟨1700000001, 0⟩, .mapII [(.str (lit "msg"), .bytes (lit "hi"))]]]
        [] = .panic ∧
    (∀ transport : List (Option Message) → List (Option GoError),
      FLBPluginFlushCtx refLib ⟨0, [], [], false, false⟩ transport (lit "app.log")
        [.slice [.flbTime ⟨1700000000, 0⟩,
            .mapII [(.str (lit "x"), .float 9221120237041090560)]],
          .slice [.flbTime ⟨1700000001, 0⟩, .mapII [(.str (lit "msg"), .bytes (lit "hi"))]]] =
        .panic) ∧
    (∀ (lib : GoLib) (p : OutputPlugin) (tag : GoString) (m : Val) (rest : List Val)
        (rb : List (Option Message)) (ts : Time) (record : Fields) (err : GoError),
      readUnit m = .ret (.ok (ts, record)) →
      CreateMessage lib p ts tag record = .error err →
      decodeLoop lib p tag (m :: rest) rb = .panic) := by
  refine ⟨rfl, rfl, rfl, fun _ => rfl, ?_⟩
  intro lib p tag m rest rb ts record err hread hmsg
  simp only [decodeLoop, hread, hmsg, Publish]

/-- C8 (defect): on a two-element sequence whose element 0 is not a timestamp, or whose element 1
is not a mapping, `ReadRecord` panics, whereas a sequence of another length gives the error
result. -/
theorem C8_ReadRecord_panics_on_wrong_element_kinds :
    readUnit (.slice [.int 1, .mapII []]) = .panic ∧
    readUnit (.slice [.flbTime ⟨1700000000, 0⟩, .int 7]) = .panic ∧
    (ReadRecord ⟨[.slice [.int 1, .mapII []]]⟩).1 = .panic ∧
    readUnit (.slice [.int 1]) = .ret (.error (.plain (lit "unexpected or malformed data"))) :=
  ⟨rfl, rfl, rfl, rfl⟩

/-- C9: on a field mapping whose keys are strings at every mapping level, `makeJSONMap` returns
a mapping with the same keys in which a byte sequence is replaced by the string of the same
bytes, a nested mapping by its own `makeJSONMap` result, and every other value is kept. -/
theorem C9_makeJSONMap_normalizes (record : List (Val × Val))
    (hkeys : stringKeyed (.mapII record) = true) (hnodup : (record.map Prod.fst).Nodup) :
    ∃ out, makeJSONMap record = .ret out ∧
      out.map (fun kv => Val.str kv.1) = record.map Prod.fst ∧
      (∀ ks b, (Val.str ks, Val.bytes b) ∈ record → mapGet out ks = some (.str b)) ∧
      (∀ ks m, (Val.str ks, Val.mapII m) ∈ record →
        ∃ o, makeJSONMap m = .ret o ∧ mapGet out ks = some (.mapSI o)) ∧
      (∀ ks v, (Val.str ks, v) ∈ record → (∀ b, v ≠ .bytes b) → (∀ m, v ≠ .mapII m) →
        mapGet out ks = some v) := by
  have hent : stringKeyed.entries record = true := by simpa [stringKeyed] using hkeys
  have hloop := makeJSONMap_loop_eq record [] hent hnodup (fun _ _ => rfl)
  simp only [List.nil_append] at hloop
  refine ⟨_, hloop, ?_, ?_, ?_, ?_⟩
  · rw [List.map_map]
    apply List.map_congr_left
    intro kv hkv
    obtain ⟨s, hs⟩ := stringKeyed_entries_key record hent kv hkv
    simp [hs, keyString]
  · intro ks b hmem
    rw [mapGet_map_of_mem record ks _ hnodup hent hmem]
    rfl
  · intro ks m hmem
    rw [mapGet_map_of_mem record ks _ hnodup hent hmem]
    have hm : stringKeyed (.mapII m) = true := by
      clear hloop hnodup hkeys
      induction record with
      | nil => cases hmem
      | cons x l ih =>
        obtain ⟨kx, vx⟩ := x
        rw [stringKeyed_entries_cons] at hent
        simp only [Bool.and_eq_true] at hent
        rcases List.mem_cons.mp hmem with heq | hmem'
        · cases heq
          exact hent.1.2
        · exact ih hent.2 hmem'
    obtain ⟨o, ho⟩ := makeJSONMap_loop_ret m [] (by simpa [stringKeyed] using hm)
    exact ⟨o, ho, by simp [storedValue, makeJSONMap.value, ho]⟩
  · intro ks v hmem hb hm
    rw [mapGet_map_of_mem record ks _ hnodup hent hmem]
    cases v with
    | bytes b => exact absurd rfl (hb b)
    | mapII m => exact absurd rfl (hm m)
    | _ => rfl

/-- Witness of C9: a record with a byte-sequence field, a nested mapping and an integer. -/
theorem C9_makeJSONMap_normalizes_witness :
    stringKeyed (.mapII [(.str (lit "msg"), .bytes (lit "hi")),
        (.str (lit "k8s"), .mapII [(.str (lit "pod"), .bytes (lit "p1"))]),
        (.str (lit "n"), .int 3)]) = true ∧
    ∃ out, makeJSONMap [(.str (lit "msg"), .bytes (lit "hi")),
        (.str (lit "k8s"), .mapII [(.str (lit "pod"), .bytes (lit "p1"))]),
        (.str (lit "n"), .int 3)] = .ret out ∧
      mapGet out (lit "msg") = some (.str (lit "hi")) ∧
      mapGet out (lit "k8s") = some (.mapSI [(lit "pod", .str (lit "p1"))]) ∧
      mapGet out (lit "n") = some (.int 3) := by
  refine ⟨rfl, ?_⟩
  obtain ⟨out, h, _, hb, hm, hv⟩ := C9_makeJSONMap_normalizes
    [(.str (lit "msg"), .bytes (lit "hi")),
      (.str (lit "k8s"), .mapII [(.str (lit "pod"), .bytes (lit "p1"))]),
      (.str (lit "n"), .int 3)] rfl (by simp [lit])
  refine ⟨out, h, hb _ _ (by simp), ?_, hv _ _ (by simp) (by simp) (by simp)⟩
  obtain ⟨o, ho, hget⟩ := hm (lit "k8s") [(.str (lit "pod"), .bytes (lit "p1"))] (by simp)
  have : o = [(lit "pod", .str (lit "p1"))] := by
    have h' : makeJSONMap [(.str (lit "pod"), .bytes (lit "p1"))] =
        .ret [(lit "pod", .str (lit "p1"))] := rfl
    rw [h'] at ho
    cases ho
    rfl
  rw [hget, this]

/-- C10: with a non-empty timestamp field name that is not a configured attribute field, the
serialised record maps that key to the integer `UnixMicro` of the timestamp, whatever the
record held at that key; `UnixMicro` is the number of microseconds since the epoch whenever
that number fits 64 bits; with an empty timestamp field name no key that the input record
lacks is in the serialised record. -/
theorem C10_timestamp_injection (lib : GoLib) (p : OutputPlugin) (ts : Time) (tag : GoString)
    (record : Fields) :
    ∃ body attrs,
      CreateMessage lib p ts tag record =
        (match lib.jsonMarshal body with
          | .error err => .error err
          | .ok j => .ok ⟨attrs, j⟩) ∧
      (p.TSField ≠ [] → p.TSField ∉ p.As → mapGet body p.TSField = some (.int ts.UnixMicro)) ∧
      (p.TSField = [] → ∀ k, mapGet record k = none → mapGet body k = none) ∧
      (-9223372036854775808 ≤ ts.sec * 1000000 + ts.nsec / 1000 →
        ts.sec * 1000000 + ts.nsec / 1000 < 9223372036854775808 →
        ts.UnixMicro = ts.sec * 1000000 + ts.nsec / 1000) := by
  refine ⟨(CreateMessage.prepare lib p ts tag record).1,
    (CreateMessage.prepare lib p ts tag record).2, rfl, ?_, ?_, ?_⟩
  · intro hne hnot
    rw [CreateMessage.prepare, attrLoop_record]
    have hset : mapGet (withTimestamp p ts record) p.TSField = some (.int ts.UnixMicro) := by
      simp [withTimestamp, hne, mapGet_mapSet]
    cases p.KA
    · simp only [Bool.false_eq_true, if_false]
      rw [mapGet_filter_notMem, if_neg hnot, hset]
    · simpa using hset
  · intro hempty k hk
    rw [CreateMessage.prepare, attrLoop_record]
    have hrec : withTimestamp p ts record = record := by simp [withTimestamp, hempty]
    rw [hrec]
    cases p.KA
    · simp only [Bool.false_eq_true, if_false]
      rw [mapGet_filter_notMem]
      split
      · rfl
      · exact hk
    · simpa using hk
  · intro hlo hhi
    simp only [Time.UnixMicro, wrapInt64]
    omega

/-- Witness of C10: timestamp field `ts`, a record that already has a field `ts`. -/
theorem C10_timestamp_injection_witness :
    ∃ body attrs,
      CreateMessage refLib ⟨0, lit "ts", [lit "user"], false, false⟩ ⟨1700000000, 500000⟩
          (lit "app.log") [(lit "user", .str (lit "a")), (lit "ts", .str (lit "old"))] =
        (match refLib.jsonMarshal body with
          | .error err => .error err
          | .ok j => .ok ⟨attrs, j⟩) ∧
      mapGet body (lit "ts") = some (.int 1700000000000500) := by
  obtain ⟨body, attrs, h, hts, _, hmicro⟩ :=
    C10_timestamp_injection refLib ⟨0, lit "ts", [lit "user"], false, false⟩
      ⟨1700000000, 500000⟩ (lit "app.log")
      [(lit "user", .str (lit "a")), (lit "ts", .str (lit "old"))]
  have h₁ := hts (by decide) (by decide)
  have h₂ := hmicro (by decide) (by decide)
  refine ⟨body, attrs, h, ?_⟩
  rw [h₁, h₂]
  rfl

/-! ## Lemmas on retention and on absent attribute fields -/

theorem mapSet_same {β : Type} (m : List (GoString × β)) (k : GoString) (v : β)
    (h : mapGet m k = some v) : mapSet m k v = m := by
  induction m with
  | nil => simp [mapGet] at h
  | cons x m ih =>
    obtain ⟨kx, vx⟩ := x
    by_cases hx : kx = k
    · subst hx
      simp only [mapGet, if_true, Option.some.injEq] at h
      simp [mapSet, h]
    · simp only [mapGet, hx, if_false] at h
      simp [mapSet, hx, ih h]

theorem mapDelete_filter_notMem {β : Type} (m : List (GoString × β)) (ks : List GoString)
    (a : GoString) :
    mapDelete (m.filter (fun kv => decide (kv.1 ∉ ks))) a =
      m.filter (fun kv => decide (kv.1 ∉ a :: ks)) := by
  simp only [mapDelete, List.filter_filter]
  apply List.filter_congr
  intro kv _
  by_cases h : kv.1 = a <;> simp [h]

/-- With retention the attributes are those of the run without retention on the record from
which the fields `ks` are gone, if every field of `ks` has its attribute already. -/
theorem attrLoop_attrs_retention (lib : GoLib) (record : Fields) (As : List GoString) :
    ∀ (ks : List GoString) (attrs : List (GoString × GoString)),
    (∀ d ∈ ks, ∃ v, mapGet record d = some v ∧ mapGet attrs d = some (lib.Sprint v)) →
    (attrLoop lib true As record attrs).2 =
      (attrLoop lib false As (record.filter (fun kv => decide (kv.1 ∉ ks))) attrs).2 := by
  induction As with
  | nil => intro ks attrs _; rfl
  | cons a rest ih =>
    intro ks attrs hks
    by_cases ha : a ∈ ks
    · obtain ⟨v, hv, hattr⟩ := hks a ha
      have hnone : mapGet (record.filter (fun kv => decide (kv.1 ∉ ks))) a = none := by
        rw [mapGet_filter_notMem, if_pos ha]
      simp only [attrLoop, hv, hnone, mapSet_same attrs a _ hattr]
      exact ih ks attrs hks
    · have hsame : mapGet (record.filter (fun kv => decide (kv.1 ∉ ks))) a = mapGet record a := by
        rw [mapGet_filter_notMem, if_neg ha]
      cases hget : mapGet record a with
      | none =>
        rw [hget] at hsame
        simp only [attrLoop, hget, hsame]
        exact ih ks attrs hks
      | some v =>
        rw [hget] at hsame
        simp only [attrLoop, hget, hsame, Bool.not_false, Bool.not_true, if_true,
          Bool.false_eq_true, if_false, mapDelete_filter_notMem]
        apply ih (a :: ks)
        intro d hd
        rcases List.mem_cons.mp hd with rfl | hd
        · exact ⟨v, hget, by simp [mapGet_mapSet]⟩
        · obtain ⟨w, hw, hattr⟩ := hks d hd
          have hne : ¬ a = d := fun h => ha (h ▸ hd)
          exact ⟨w, hw, by simp [mapGet_mapSet, hne, hattr]⟩

theorem mapGet_mapDelete_none {β : Type} (m : List (GoString × β)) (a k : GoString)
    (h : mapGet m k = none) : mapGet (mapDelete m a) k = none := by
  have hd : mapDelete m a = m.filter (fun kv => decide (kv.1 ∉ [a])) := by
    simp only [mapDelete]
    apply List.filter_congr
    intro kv _
    simp
  rw [hd, mapGet_filter_notMem]
  split
  · rfl
  · exact h

/-- A configured attribute field that the record lacks can be left out of the list. -/
theorem attrLoop_skip_absent (lib : GoLib) (KA : Bool) (k : GoString) (As : List GoString) :
    ∀ (record : Fields) (attrs : List (GoString × GoString)), mapGet record k = none →
    attrLoop lib KA As record attrs =
      attrLoop lib KA (As.filter (fun a => decide (a ≠ k))) record attrs := by
  induction As with
  | nil => intro _ _ _; rfl
  | cons a rest ih =>
    intro record attrs hk
    by_cases ha : a = k
    · subst ha
      simp only [attrLoop, hk, List.filter_cons, ne_eq, not_true_eq_false, decide_False,
        Bool.false_eq_true, if_false]
      exact ih record attrs hk
    · simp only [List.filter_cons, ne_eq, ha, not_false_eq_true, decide_True, if_true, attrLoop]
      cases hget : mapGet record a with
      | none => exact ih record attrs hk
      | some v =>
        simp only
        apply ih
        cases KA
        · simpa using mapGet_mapDelete_none record a k hk
        · simpa using hk

/-- When the record has none of the configured attribute fields the loop changes nothing. -/
theorem attrLoop_none_present (lib : GoLib) (KA : Bool) (As : List GoString) (record : Fields)
    (attrs : List (GoString × GoString)) (h : ∀ a ∈ As, mapGet record a = none) :
    attrLoop lib KA As record attrs = (record, attrs) := by
  induction As with
  | nil => rfl
  | cons a rest ih =>
    have ha := h a (List.mem_cons_self _ _)
    simp only [attrLoop, ha]
    exact ih (fun b hb => h b (List.mem_cons_of_mem _ hb))

/-! ## Theorems: retention, absent attribute fields, context errors -/

/-- C11: with retention enabled `CreateMessage` serialises the whole record after timestamp
injection, no field removed, and its attributes are those of the run with retention disabled
on the same input, also when the attribute field list repeats a name; the record with fields
user=a and msg=hi and the attribute field user gives the JSON object of both fields. -/
theorem C11_retention_same_attributes_full_body (lib : GoLib) (p : OutputPlugin) (ts : Time)
    (tag : GoString) (record : Fields) (hKA : p.KA = true) :
    CreateMessage lib p ts tag record =
      (match lib.jsonMarshal (withTimestamp p ts record) with
        | .error err => .error err
        | .ok j =>
          .ok ⟨(CreateMessage.prepare lib ⟨p.ID, p.TSField, p.As, false, p.D⟩ ts tag record).2,
            j⟩) ∧
    (∀ msg msg', CreateMessage lib p ts tag record = .ok msg →
      CreateMessage lib ⟨p.ID, p.TSField, p.As, false, p.D⟩ ts tag record = .ok msg' →
      msg.Attributes = msg'.Attributes) ∧
    (∀ (ts' : Time) (tag' : GoString),
      CreateMessage refLib ⟨0, [], [lit "user"], true, false⟩ ts' tag'
          [(lit "user", .str (lit "a")), (lit "msg", .str (lit "hi"))] =
        .ok ⟨[(lit "tag", tag'), (lit "user", lit "a")], lit "\x7b\"msg\":\"hi\",\"user\":\"a\"\x7d"⟩ ∧
      CreateMessage refLib ⟨0, [], [lit "user", lit "user"], true, false⟩ ts' tag'
          [(lit "user", .str (lit "a")), (lit "msg", .str (lit "hi"))] =
        .ok ⟨[(lit "tag", tag'), (lit "user", lit "a")], lit "\x7b\"msg\":\"hi\",\"user\":\"a\"\x7d"⟩ ∧
      refLib.jsonMarshal [(lit "user", .str (lit "a")), (lit "msg", .str (lit "hi"))] =
        .ok (lit "\x7b\"msg\":\"hi\",\"user\":\"a\"\x7d")) := by
  have hrec : (CreateMessage.prepare lib p ts tag record).1 = withTimestamp p ts record := by
    rw [CreateMessage.prepare, attrLoop_record, hKA]
    rfl
  have hattrs : (CreateMessage.prepare lib p ts tag record).2 =
      (CreateMessage.prepare lib ⟨p.ID, p.TSField, p.As, false, p.D⟩ ts tag record).2 := by
    have h := attrLoop_attrs_retention lib (withTimestamp p ts record) p.As []
      [(lit "tag", tag)] (by simp)
    have hfil : (withTimestamp p ts record).filter (fun kv => decide (kv.1 ∉ [])) =
        withTimestamp p ts record := by simp
    rw [hfil] at h
    rw [CreateMessage.prepare, hKA, h]
    rfl
  refine ⟨?_, ?_, ?_⟩
  · unfold CreateMessage
    rw [hrec, hattrs]
  · intro msg msg' h h'
    rw [((CreateMessage_ok_iff lib p ts tag record msg).mp h).2,
      ((CreateMessage_ok_iff lib _ ts tag record msg').mp h').2, hattrs]
  · intro ts' tag'
    exact ⟨rfl, rfl, rfl⟩

/-- Witness of C11: attribute field `user`, record with fields user=a and msg=hi, retention. -/
theorem C11_retention_same_attributes_full_body_witness :
    CreateMessage refLib ⟨0, [], [lit "user"], true, false⟩ ⟨1700000000, 0⟩ (lit "app.log")
        [(lit "user", .str (lit "a")), (lit "msg", .str (lit "hi"))] =
      (match refLib.jsonMarshal (withTimestamp ⟨0, [], [lit "user"], true, false⟩
          ⟨1700000000, 0⟩ [(lit "user", .str (lit "a")), (lit "msg", .str (lit "hi"))]) with
        | .error err => .error err
        | .ok j =>
          .ok ⟨(CreateMessage.prepare refLib ⟨0, [], [lit "user"], false, false⟩
            ⟨1700000000, 0⟩ (lit "app.log")
            [(lit "user", .str (lit "a")), (lit "msg", .str (lit "hi"))]).2, j⟩) :=
  (C11_retention_same_attributes_full_body refLib ⟨0, [], [lit "user"], true, false⟩
    ⟨1700000000, 0⟩ (lit "app.log")
    [(lit "user", .str (lit "a")), (lit "msg", .str (lit "hi"))] rfl).1

/-- C12 (as stated, refuted): with the timestamp field `ts` among the configured attribute fields
and a record that has no key `ts`, the injected timestamp is lifted: the message has the
attribute `ts` and the body lacks the key that it has without that attribute field. -/
theorem C12_counterexample :
    mapGet [(lit "msg", Val.str (lit "hi"))] (lit "ts") = none ∧
    CreateMessage refLib ⟨0, lit "ts", [lit "ts"], false, false⟩ ⟨1700000000, 0⟩ (lit "app.log")
        [(lit "msg", .str (lit "hi"))] =
      .ok ⟨[(lit "tag", lit "app.log"), (lit "ts", lit "1700000000000000")],
        lit "\x7b\"msg\":\"hi\"\x7d"⟩ ∧
    CreateMessage refLib ⟨0, lit "ts", [], false, false⟩ ⟨1700000000, 0⟩ (lit "app.log")
        [(lit "msg", .str (lit "hi"))] =
      .ok ⟨[(lit "tag", lit "app.log")],
        lit "\x7b\"msg\":\"hi\",\"ts\":1700000000000000\x7d"⟩ :=
  ⟨rfl, rfl, rfl⟩

/-- C12 (amended): a configured attribute field that is not a key of the record and is not the
configured timestamp field has no effect: the result of `CreateMessage`, message or error,
is the one obtained with that name left out of the configuration, a built message has no
attribute of that name (the fixed attribute `tag`, which holds the routing tag, apart), and
the serialised record has no such key; when the record has none of the configured attribute
fields and no timestamp field is configured, the attributes are the attribute `tag` alone
and the body is the serialisation of the unmodified record. -/
theorem C12_absent_attribute_field_noop (lib : GoLib) (p : OutputPlugin) (ts : Time)
    (tag : GoString) (record : Fields) :
    (∀ k, mapGet record k = none → (p.TSField = [] ∨ k ≠ p.TSField) →
      CreateMessage lib p ts tag record =
        CreateMessage lib ⟨p.ID, p.TSField, p.As.filter (fun a => decide (a ≠ k)), p.KA, p.D⟩
          ts tag record ∧
      mapGet (CreateMessage.prepare lib p ts tag record).1 k = none ∧
      ∀ msg, CreateMessage lib p ts tag record = .ok msg →
        mapGet msg.Attributes k = if k = lit "tag" then some tag else none) ∧
    ((∀ a ∈ p.As, mapGet record a = none) → p.TSField = [] →
      CreateMessage lib p ts tag record =
        (match lib.jsonMarshal record with
          | .error err => .error err
          | .ok j => .ok ⟨[(lit "tag", tag)], j⟩)) := by
  constructor
  · intro k hrec hts
    have hk : mapGet (withTimestamp p ts record) k = none := by
      unfold withTimestamp
      rcases hts with hempty | hne
      · simp [hempty, hrec]
      · by_cases hT : p.TSField = []
        · simp [hT, hrec]
        · have hne' : ¬ p.TSField = k := fun h => hne h.symm
          simp [hT, mapGet_mapSet, hne', hrec]
    have hprep : CreateMessage.prepare lib p ts tag record =
        CreateMessage.prepare lib
          ⟨p.ID, p.TSField, p.As.filter (fun a => decide (a ≠ k)), p.KA, p.D⟩ ts tag record := by
      simp only [CreateMessage.prepare]
      exact attrLoop_skip_absent lib p.KA k p.As _ _ hk
    refine ⟨?_, ?_, ?_⟩
    · unfold CreateMessage
      rw [hprep]
    · rw [CreateMessage.prepare, attrLoop_record]
      cases p.KA
      · simp only [Bool.false_eq_true, if_false]
        rw [mapGet_filter_notMem]
        split
        · rfl
        · exact hk
      · simpa using hk
    · intro msg hmsg
      rw [((CreateMessage_ok_iff lib p ts tag record msg).mp hmsg).2, CreateMessage.prepare,
        attrLoop_attrs, hk]
      by_cases hkt : k = lit "tag"
      · subst hkt
        simp [mapGet]
      · have hkt' : ¬ lit "tag" = k := fun h => hkt h.symm
        simp [mapGet, hkt, hkt']
  · intro hnone hts
    have hrec : withTimestamp p ts record = record := by simp [withTimestamp, hts]
    unfold CreateMessage
    rw [CreateMessage.prepare, hrec, attrLoop_none_present lib p.KA p.As record _ hnone]

/-- Witness of C12 (amended): attribute field `missing`, timestamp field `ts`, and a record with
fields user=a and msg=hi; then the same without a timestamp field. -/
theorem C12_absent_attribute_field_noop_witness :
    mapGet [(lit "user", Val.str (lit "a")), (lit "msg", Val.str (lit "hi"))] (lit "missing") =
      none ∧
    lit "missing" ≠ lit "ts" ∧
    CreateMessage refLib ⟨0, lit "ts", [lit "missing"], false, false⟩ ⟨1700000000, 0⟩
        (lit "app.log") [(lit "user", .str (lit "a")), (lit "msg", .str (lit "hi"))] =
      CreateMessage refLib ⟨0, lit "ts", [], false, false⟩ ⟨1700000000, 0⟩ (lit "app.log")
        [(lit "user", .str (lit "a")), (lit "msg", .str (lit "hi"))] ∧
    CreateMessage refLib ⟨0, [], [lit "missing"], false, false⟩ ⟨1700000000, 0⟩ (lit "app.log")
        [(lit "user", .str (lit "a")), (lit "msg", .str (lit "hi"))] =
      (match refLib.jsonMarshal [(lit "user", .str (lit "a")), (lit "msg", .str (lit "hi"))] with
        | .error err => .error err
        | .ok j => .ok ⟨[(lit "tag", lit "app.log")], j⟩) := by
  have h₁ := (C12_absent_attribute_field_noop refLib
    ⟨0, lit "ts", [lit "missing"], false, false⟩ ⟨1700000000, 0⟩ (lit "app.log")
    [(lit "user", .str (lit "a")), (lit "msg", .str (lit "hi"))]).1 (lit "missing") rfl
    (Or.inr (by decide))
  have h₂ := (C12_absent_attribute_field_noop refLib ⟨0, [], [lit "missing"], false, false⟩
    ⟨1700000000, 0⟩ (lit "app.log")
    [(lit "user", .str (lit "a")), (lit "msg", .str (lit "hi"))]).2
  refine ⟨rfl, by decide, h₁.1, h₂ ?_ rfl⟩
  intro a ha
  simp only [List.mem_singleton] at ha
  subst ha
  rfl

/-- C13 (as stated, refuted): a handle that resolves with the sentinel `context.Canceled` gives
`FLB_ERROR`, not `FLB_RETRY`. -/
theorem C13_counterexample :
    awaitAll [some .contextCanceled] = FLB_ERROR ∧
    awaitAll [some .contextCanceled] ≠ FLB_RETRY := by
  decide

/-- C13 (amended): when the first handle that resolves with an error resolves with
`context.DeadlineExceeded`, the await loop returns `FLB_RETRY`; when it resolves with
`context.Canceled`, which carries no status, the await loop returns `FLB_ERROR` as for any
other error without status. -/
theorem C13_deadline_retry_cancel_fatal (n : Nat) (post : List (Option GoError)) :
    awaitAll (List.replicate n none ++ some .contextDeadlineExceeded :: post) = FLB_RETRY ∧
    awaitAll (List.replicate n none ++ some .contextCanceled :: post) = FLB_ERROR := by
  induction n with
  | zero => exact ⟨rfl, rfl⟩
  | succ n ih => simpa [List.replicate_succ, awaitAll] using ih

/-! ## Lemmas on the flush -/

mutual
/-- On entries that are not string-keyed the loop of `makeJSONMap` panics. -/
theorem makeJSONMap_loop_panic : ∀ (l : List (Val × Val)) (acc : Fields),
    stringKeyed.entries l = false → makeJSONMap.loop l acc = .panic
  | [], _, h => by simp [stringKeyed.entries] at h
  | (k, v) :: rest, acc, h => by
    rw [stringKeyed_entries_cons] at h
    cases hv : stringKeyed v with
    | false =>
      simp [makeJSONMap.loop, makeJSONMap.entry, makeJSONMap_value_panic v hv]
    | true =>
      obtain ⟨v', hv'⟩ := makeJSONMap_value_ret v hv
      cases k with
      | str ks =>
        have hrest : stringKeyed.entries rest = false := by simpa [hv] using h
        simp [makeJSONMap.loop, makeJSONMap.entry, hv',
          makeJSONMap_loop_panic rest (mapSet acc ks v') hrest]
      | _ => simp [makeJSONMap.loop, makeJSONMap.entry, hv']
/-- On a value that is not string-keyed the type switch of `makeJSONMap` panics. -/
theorem makeJSONMap_value_panic : ∀ (v : Val), stringKeyed v = false →
    makeJSONMap.value v = .panic
  | .mapII t, h => by
    have h' : stringKeyed.entries t = false := by simpa [stringKeyed] using h
    simp [makeJSONMap.value, makeJSONMap_loop_panic t [] h']
  | .bytes _, h => by simp [stringKeyed] at h
  | .null, h => by simp [stringKeyed] at h
  | .bool _, h => by simp [stringKeyed] at h
  | .int _, h => by simp [stringKeyed] at h
  | .float _, h => by simp [stringKeyed] at h
  | .str _, h => by simp [stringKeyed] at h
  | .flbTime _, h => by simp [stringKeyed] at h
  | .rawExt _ _, h => by simp [stringKeyed] at h
  | .slice _, h => by simp [stringKeyed] at h
  | .mapSI _, h => by simp [stringKeyed] at h
end

theorem readUnit_wrongArity (m : Val) (h : wrongArity m = true) :
    readUnit m = .ret (.error (.plain (lit "unexpected or malformed data"))) := by
  cases m with
  | slice xs =>
    have hlen : xs.length ≠ 2 := by simpa [wrongArity] using h
    simp [readUnit, sliceLen, hlen]
  | _ => simp [wrongArity] at h

theorem builtMessage_wrongArity (lib : GoLib) (p : OutputPlugin) (tag : GoString) (m : Val)
    (h : wrongArity m = true) : builtMessage lib p tag m = none := by
  simp [builtMessage, readUnit_wrongArity m h]

/-- On units that are of wrong arity or give a message, the decoding loop appends to `rb` the
messages of the units that give one, in order. -/
theorem decodeLoop_eq (lib : GoLib) (p : OutputPlugin) (tag : GoString) (units : List Val) :
    ∀ (rb : List (Option Message)),
    (∀ m ∈ units, wrongArity m = true ∨ (builtMessage lib p tag m).isSome = true) →
    decodeLoop lib p tag units rb =
      .ret (rb ++ (units.filterMap (builtMessage lib p tag)).map some) := by
  induction units with
  | nil => intro rb _; simp [decodeLoop]
  | cons m rest ih =>
    intro rb h
    have hrest : ∀ m' ∈ rest, wrongArity m' = true ∨ (builtMessage lib p tag m').isSome = true :=
      fun m' hm' => h m' (List.mem_cons_of_mem _ hm')
    rcases h m (List.mem_cons_self _ _) with hw | hb
    · simp only [decodeLoop, readUnit_wrongArity m hw, List.filterMap_cons,
        builtMessage_wrongArity lib p tag m hw]
      exact ih rb hrest
    · cases hread : readUnit m with
      | panic => simp [builtMessage, hread] at hb
      | ret res =>
        cases res with
        | error e => simp [builtMessage, hread] at hb
        | ok tr =>
          obtain ⟨ts, record⟩ := tr
          cases hmsg : CreateMessage lib p ts tag record with
          | error e => simp [builtMessage, hread, hmsg] at hb
          | ok msg =>
            have hbm : builtMessage lib p tag m = some msg := by
              simp [builtMessage, hread, hmsg]
            simp only [decodeLoop, hread, hmsg, Publish, List.filterMap_cons, hbm]
            rw [ih (rb ++ [some msg]) hrest]
            simp

theorem filterMap_builtMessage_filter (lib : GoLib) (p : OutputPlugin) (tag : GoString)
    (units : List Val) :
    (units.filter (fun m => !wrongArity m)).filterMap (builtMessage lib p tag) =
      units.filterMap (builtMessage lib p tag) := by
  induction units with
  | nil => rfl
  | cons m rest ih =>
    cases hw : wrongArity m with
    | true => simp [List.filter_cons, hw, builtMessage_wrongArity lib p tag m hw, ih]
    | false => simp [List.filter_cons, hw, List.filterMap_cons, ih]

/-! ## Theorems: malformed units and timestamp payloads -/

/-- C14 (defect): on a record unit whose field mapping has a key that is not a string, at the
top level or in a nested mapping, `ReadRecord` panics in `makeJSONMap`; it returns no error
result. Every mapping with such a key makes `makeJSONMap` panic. -/
theorem C14_ReadRecord_panics_on_non_string_key :
    readUnit (.slice [.flbTime ⟨1700000000, 0⟩, .mapII [(.int 1, .bytes (lit "x"))]]) = .panic ∧
    readUnit (.slice [.flbTime ⟨1700000000, 0⟩,
      .mapII [(.str (lit "k"), .mapII [(.int 1, .bytes (lit "x"))])]]) = .panic ∧
    (ReadRecord ⟨[.slice [.flbTime ⟨1700000000, 0⟩,
      .mapII [(.int 1, .bytes (lit "x"))]]]⟩).1 = .panic ∧
    (∀ kvs : List (Val × Val), stringKeyed (.mapII kvs) = false → makeJSONMap kvs = .panic) := by
  refine ⟨rfl, rfl, rfl, ?_⟩
  intro kvs h
  exact makeJSONMap_loop_panic kvs [] (by simpa [stringKeyed] using h)

/-- C15: on a buffer whose units are each a unit of wrong arity or a record whose message is
built, the decoding loop submits the messages built from the records, in decode order, and
nothing else; the flush returns what the await loop gives on the handles of these messages,
the same as for the buffer without the units of wrong arity; a record followed by a unit of
wrong arity gives one submitted message. -/
theorem C15_malformed_units_skipped (lib : GoLib) (p : OutputPlugin)
    (transport : List (Option Message) → List (Option GoError)) (tag : GoString)
    (units : List Val)
    (h : ∀ m ∈ units, wrongArity m = true ∨ (builtMessage lib p tag m).isSome = true) :
    decodeLoop lib p tag units [] =
      .ret ((units.filterMap (builtMessage lib p tag)).map some) ∧
    FLBPluginFlushCtx lib p transport tag units =
      .ret (awaitAll (transport ((units.filterMap (builtMessage lib p tag)).map some))) ∧
    FLBPluginFlushCtx lib p transport tag units =
      FLBPluginFlushCtx lib p transport tag (units.filter (fun m => !wrongArity m)) ∧
    decodeLoop refLib ⟨0, [], [], false, false⟩ (lit "app.log")
        [.slice [.flbTime ⟨1700000000, 0⟩, .mapII [(.str (lit "msg"), .bytes (lit "hi"))]],
          .slice [.int 1]] [] =
      .ret [some ⟨[(lit "tag", lit "app.log")], lit "\x7b\"msg\":\"hi\"\x7d"⟩] := by
  have h₁ := decodeLoop_eq lib p tag units [] h
  simp only [List.nil_append] at h₁
  have hfil : ∀ m ∈ units.filter (fun m => !wrongArity m),
      wrongArity m = true ∨ (builtMessage lib p tag m).isSome = true :=
    fun m hm => h m (List.mem_filter.mp hm).1
  have h₂ := decodeLoop_eq lib p tag (units.filter (fun m => !wrongArity m)) [] hfil
  simp only [List.nil_append, filterMap_builtMessage_filter] at h₂
  refine ⟨h₁, ?_, ?_, rfl⟩
  · simp only [FLBPluginFlushCtx, h₁]
  · simp only [FLBPluginFlushCtx, h₁, h₂]

/-- Witness of C15: a record followed by a unit of wrong arity, every handle resolving without
error. -/
theorem C15_malformed_units_skipped_witness :
    FLBPluginFlushCtx refLib ⟨0, [], [], false, false⟩ (fun rb => rb.map (fun _ => none))
        (lit "app.log")
        [.slice [.flbTime ⟨1700000000, 0⟩, .mapII [(.str (lit "msg"), .bytes (lit "hi"))]],
          .slice [.int 1]] =
      .ret (awaitAll ((fun rb : List (Option Message) => rb.map (fun _ => none))
        (([.slice [.flbTime ⟨1700000000, 0⟩, .mapII [(.str (lit "msg"), .bytes (lit "hi"))]],
          .slice [.int 1]].filterMap
            (builtMessage refLib ⟨0, [], [], false, false⟩ (lit "app.log"))).map some))) :=
  (C15_malformed_units_skipped refLib ⟨0, [], [], false, false⟩
    (fun rb => rb.map (fun _ => none)) (lit "app.log")
    [.slice [.flbTime ⟨1700000000, 0⟩, .mapII [(.str (lit "msg"), .bytes (lit "hi"))]],
      .slice [.int 1]]
    (by
      intro m hm
      simp only [List.mem_cons, List.mem_singleton, List.not_mem_nil, or_false] at hm
      rcases hm with rfl | rfl
      · exact Or.inr rfl
      · exact Or.inl rfl)).2.1

/-- C16 (as stated, refuted): a payload of 9 bytes decodes to an instant, the one of its first 8
bytes. -/
theorem C16_counterexample :
    (be32 1700000000 ++ be32 0 ++ [7]).length = 9 ∧
    ReadExt (be32 1700000000 ++ be32 0 ++ [7]) = .ret ⟨1700000000, 0⟩ := by
  decide

/-- C16 (amended): on a payload of fewer than 8 bytes `ReadExt` yields no timestamp (the read
past the end panics); a payload of 8 bytes or more decodes to an instant, the one of its
first 8 bytes. -/
theorem C16_ReadExt_payload_length (b : Bytes) :
    (b.length < 8 → ReadExt b = .panic) ∧
    (8 ≤ b.length → ∃ t, ReadExt b = .ret t ∧ ReadExt (b.take 8) = .ret t) := by
  rcases b with _ | ⟨b0, _ | ⟨b1, _ | ⟨b2, _ | ⟨b3, _ | ⟨b4, _ | ⟨b5, _ | ⟨b6, _ | ⟨b7, rest⟩⟩⟩⟩⟩⟩⟩⟩
  all_goals first
    | (refine ⟨fun _ => ?_, fun h => ?_⟩
       · simp [ReadExt, bigEndianUint32]
       · simp only [List.length_cons, List.length_nil] at h
         omega)
    | (refine ⟨fun h => ?_, fun _ => ?_⟩
       · simp only [List.length_cons] at h
         omega
       · exact ⟨_, rfl, rfl⟩)

/-- Witness of C16 (amended): a payload of 3 bytes and a payload of 9 bytes. -/
theorem C16_ReadExt_payload_length_witness :
    ReadExt [1, 2, 3] = .panic ∧
    ∃ t, ReadExt (be32 1700000000 ++ be32 0 ++ [7]) = .ret t ∧
      ReadExt ((be32 1700000000 ++ be32 0 ++ [7]).take 8) = .ret t :=
  ⟨(C16_ReadExt_payload_length [1, 2, 3]).1 (by decide),
    (C16_ReadExt_payload_length (be32 1700000000 ++ be32 0 ++ [7])).2 (by decide)⟩

/-! ## Lemmas on `strings.FieldsFunc` and on the characters of a string -/

theorem IsFieldSplit.cons_sep {sep : Nat → Bool} {cs : List (Nat × GoString)}
    {fs : List GoString} (h : IsFieldSplit sep cs fs) (c : Nat × GoString)
    (hc : sep c.1 = true) : IsFieldSplit sep (c :: cs) fs := by
  cases h with
  | done _ hall =>
    apply IsFieldSplit.done
    intro x hx
    rcases List.mem_cons.mp hx with rfl | hx
    · exact hc
    · exact hall x hx
  | field gap run rest fs' hgap hne hrun hrest hfs =>
    have := IsFieldSplit.field (c :: gap) run rest fs' (by
      intro x hx
      rcases List.mem_cons.mp hx with rfl | hx
      · exact hc
      · exact hgap x hx) hne hrun hrest hfs
    simpa using this

/-- The fields that `fieldsFunc` returns split the characters, also when it starts inside a
field. -/
theorem fieldsFunc_split (sep : Nat → Bool) (cs : List (Nat × GoString)) :
    IsFieldSplit sep cs (fieldsFunc sep cs none) ∧
    ∀ run : List (Nat × GoString), run ≠ [] → (∀ c ∈ run, sep c.1 = false) →
      IsFieldSplit sep (run ++ cs) (fieldsFunc sep cs (some (run.flatMap (fun c => c.2)))) := by
  induction cs with
  | nil =>
    refine ⟨IsFieldSplit.done [] (by simp), ?_⟩
    intro run hne hrun
    have := IsFieldSplit.field [] run [] [] (by simp) hne hrun (Or.inl rfl)
      (IsFieldSplit.done [] (by simp))
    simpa [fieldsFunc] using this
  | cons c cs ih =>
    obtain ⟨r, bs⟩ := c
    cases hsep : sep r with
    | true =>
      have hP : IsFieldSplit sep ((r, bs) :: cs) (fieldsFunc sep cs none) :=
        ih.1.cons_sep (r, bs) hsep
      refine ⟨by simpa [fieldsFunc, hsep] using hP, ?_⟩
      intro run hne hrun
      have := IsFieldSplit.field [] run ((r, bs) :: cs) _ (by simp) hne hrun
        (Or.inr ⟨(r, bs), cs, rfl, hsep⟩) hP
      simpa [fieldsFunc, hsep] using this
    | false =>
      constructor
      · have := ih.2 [(r, bs)] (by simp) (by simpa using hsep)
        simpa [fieldsFunc, hsep] using this
      · intro run hne hrun
        have := ih.2 (run ++ [(r, bs)]) (by simp) (by
          intro x hx
          rcases List.mem_append.mp hx with hx | hx
          · exact hrun x hx
          · simp only [List.mem_singleton] at hx
            subst hx
            exact hsep)
        simpa [fieldsFunc, hsep] using this

/-- Every field of a split is a non-empty run of characters of the string that are not
separators. -/
theorem IsFieldSplit.field_run {sep : Nat → Bool} {cs : List (Nat × GoString)}
    {fs : List GoString} (h : IsFieldSplit sep cs fs) :
    ∀ s ∈ fs, ∃ run : List (Nat × GoString), run ≠ [] ∧
      (∀ c ∈ run, c ∈ cs ∧ sep c.1 = false) ∧ s = run.flatMap (fun c => c.2) := by
  induction h with
  | done _ _ => intro s hs; cases hs
  | field gap run rest fs' hgap hne hrun hrest hfs ih =>
    intro s hs
    rcases List.mem_cons.mp hs with rfl | hs
    · exact ⟨run, hne, fun c hc => ⟨by simp [hc], hrun c hc⟩, rfl⟩
    · obtain ⟨run', hne', hrun', hs'⟩ := ih s hs
      exact ⟨run', hne', fun c hc => ⟨by simp [(hrun' c hc).1], (hrun' c hc).2⟩, hs'⟩

/-- A split has no field exactly when every character is a separator. -/
theorem IsFieldSplit.nil_iff {sep : Nat → Bool} {cs : List (Nat × GoString)}
    {fs : List GoString} (h : IsFieldSplit sep cs fs) :
    fs = [] ↔ ∀ c ∈ cs, sep c.1 = true := by
  cases h with
  | done _ hall => exact ⟨fun _ => hall, fun _ => rfl⟩
  | field gap run rest fs' hgap hne hrun hrest hfs =>
    constructor
    · intro h; cases h
    · intro hall
      exfalso
      obtain ⟨c, hc⟩ := List.exists_mem_of_ne_nil run hne
      have h₁ := hrun c hc
      have h₂ := hall c (by simp [hc])
      rw [h₁] at h₂
      cases h₂

theorem utf8First_lo (b0 size lo hi : Nat) (h : utf8First b0 = some (size, lo, hi)) :
    128 ≤ lo := by
  unfold utf8First at h
  repeat' split at h
  all_goals first
    | (simp only [Option.some.injEq, Prod.mk.injEq] at h; omega)
    | cases h

theorem take_one_ge (b0 : Nat) (rest : GoString) (h : 128 ≤ b0) :
    ∀ x ∈ (b0 :: rest).take 1, 128 ≤ x := by
  intro x hx
  simp only [List.take_succ_cons, List.take_zero, List.mem_singleton] at hx
  omega

/-- A character that starts with a byte from 128 on has a width of at least 1 and is made of
bytes from 128 on. -/
theorem decodeRune_high (b0 : Nat) (rest : GoString) (h0 : ¬ b0 < 128) :
    1 ≤ (decodeRune (b0 :: rest)).2 ∧
    ∀ x ∈ (b0 :: rest).take (decodeRune (b0 :: rest)).2, 128 ≤ x := by
  have h0' : 128 ≤ b0 := by omega
  cases hf : utf8First b0 with
  | none =>
    simp only [decodeRune, h0, if_false, hf]
    exact ⟨le_refl 1, take_one_ge b0 _ h0'⟩
  | some t =>
    obtain ⟨size, lo, hi⟩ := t
    have hlo := utf8First_lo b0 size lo hi hf
    cases rest with
    | nil =>
      simp only [decodeRune, h0, if_false, hf]
      exact ⟨le_refl 1, take_one_ge b0 _ h0'⟩
    | cons b1 rest1 =>
      by_cases h1 : b1 < lo ∨ hi < b1
      · simp only [decodeRune, h0, if_false, hf, h1, if_true]
        exact ⟨le_refl 1, take_one_ge b0 _ h0'⟩
      · have h1' : 128 ≤ b1 := by omega
        by_cases hs2 : size = 2
        · simp only [decodeRune, h0, if_false, hf, h1, hs2, if_true]
          refine ⟨by omega, ?_⟩
          intro x hx
          simp only [List.take_succ_cons, List.take_zero, List.mem_cons, List.mem_singleton,
            List.not_mem_nil, or_false] at hx
          rcases hx with rfl | rfl <;> assumption
        · cases rest1 with
          | nil =>
            simp only [decodeRune, h0, if_false, hf, h1, hs2]
            exact ⟨le_refl 1, take_one_ge b0 _ h0'⟩
          | cons b2 rest2 =>
            by_cases h2 : b2 < 128 ∨ 191 < b2
            · simp only [decodeRune, h0, if_false, hf, h1, hs2, h2, if_true]
              exact ⟨le_refl 1, take_one_ge b0 _ h0'⟩
            · have h2' : 128 ≤ b2 := by omega
              by_cases hs3 : size = 3
              · subst hs3
                simp only [decodeRune, h0, if_false, hf, h1, hs2, h2, if_true]
                refine ⟨by omega, ?_⟩
                intro x hx
                simp only [List.take_succ_cons, List.take_zero, List.mem_cons,
                  List.not_mem_nil, or_false] at hx
                rcases hx with rfl | rfl | rfl <;> assumption
              · cases rest2 with
                | nil =>
                  simp only [decodeRune, h0, if_false, hf, h1, hs2, h2, hs3]
                  exact ⟨le_refl 1, take_one_ge b0 _ h0'⟩
                | cons b3 rest3 =>
                  by_cases h3 : b3 < 128 ∨ 191 < b3
                  · simp only [decodeRune, h0, if_false, hf, h1, hs2, h2, hs3, h3, if_true]
                    exact ⟨le_refl 1, take_one_ge b0 _ h0'⟩
                  · have h3' : 128 ≤ b3 := by omega
                    simp only [decodeRune, h0, if_false, hf, h1, hs2, h2, hs3, h3]
                    refine ⟨by omega, ?_⟩
                    intro x hx
                    simp only [List.take_succ_cons, List.take_zero, List.mem_cons,
                      List.not_mem_nil, or_false] at hx
                    rcases hx with rfl | rfl | rfl | rfl <;> assumption

/-- The width of a character is at least 1; an ASCII byte is its own character, every other
character is made of bytes from 128 on. -/
theorem decodeRune_spec (b0 : Nat) (rest : GoString) :
    1 ≤ (decodeRune (b0 :: rest)).2 ∧
    ((b0 < 128 ∧ decodeRune (b0 :: rest) = (b0, 1)) ∨
      (128 ≤ b0 ∧ ∀ x ∈ (b0 :: rest).take (decodeRune (b0 :: rest)).2, 128 ≤ x)) := by
  by_cases h0 : b0 < 128
  · simp [decodeRune, h0]
  · obtain ⟨hw, hall⟩ := decodeRune_high b0 rest h0
    exact ⟨hw, Or.inr ⟨by omega, hall⟩⟩

/-- With fuel for every byte, the bytes of the characters make up the string. -/
theorem decodeRunes_go_bytes (fuel : Nat) : ∀ s : GoString, s.length ≤ fuel →
    (decodeRunes.go fuel s).flatMap (fun c => c.2) = s := by
  induction fuel with
  | zero =>
    intro s hs
    have : s = [] := List.length_eq_zero.mp (Nat.le_zero.mp hs)
    subst this
    rfl
  | succ fuel ih =>
    intro s hs
    cases s with
    | nil => rfl
    | cons b s =>
      have hw := (decodeRune_spec b s).1
      have hlen : ((b :: s).drop (decodeRune (b :: s)).2).length ≤ fuel := by
        rw [List.length_drop]
        simp only [List.length_cons] at hs ⊢
        omega
      simp only [decodeRunes.go, List.flatMap_cons, ih _ hlen, List.take_append_drop]

/-- Every character of a string has bytes: its own code if that is below 128, else bytes from
128 on. -/
theorem decodeRunes_go_char (fuel : Nat) : ∀ (s : GoString) (c : Nat × GoString),
    c ∈ decodeRunes.go fuel s →
    c.2 ≠ [] ∧ ((c.1 < 128 ∧ c.2 = [c.1]) ∨ ∀ x ∈ c.2, 128 ≤ x) := by
  induction fuel with
  | zero => intro s c hc; simp [decodeRunes.go] at hc
  | succ fuel ih =>
    intro s c hc
    cases s with
    | nil => simp [decodeRunes.go] at hc
    | cons b s =>
      simp only [decodeRunes.go, List.mem_cons] at hc
      rcases hc with rfl | hc
      · obtain ⟨hw, hcase⟩ := decodeRune_spec b s
        constructor
        · simp only
          intro h
          have := congrArg List.length h
          rw [List.length_take] at this
          simp only [List.length_cons, List.length_nil] at this
          omega
        · rcases hcase with ⟨hlt, heq⟩ | ⟨_, hall⟩
          · left
            simp [heq, hlt]
          · right
            exact hall
      · exact ih _ c hc

theorem spt_not_sep_bytes (c : Nat × GoString)
    (hc : c.2 ≠ [] ∧ ((c.1 < 128 ∧ c.2 = [c.1]) ∨ ∀ x ∈ c.2, 128 ≤ x))
    (hsep : spt c.1 = false) : 44 ∉ c.2 ∧ 32 ∉ c.2 := by
  rcases hc.2 with ⟨_, heq⟩ | hall
  · rw [heq]
    simp only [List.mem_singleton]
    constructor
    · intro h
      rw [← h] at hsep
      revert hsep
      decide
    · intro h
      rw [← h] at hsep
      revert hsep
      decide
  · constructor
    · intro h
      have := hall 44 h
      omega
    · intro h
      have := hall 32 h
      omega

/-! ## Theorems: configuration store and configuration -/

/-- C17 (as stated, refuted): the key `credentials_file` matches none of the words of the
expression `sn`, and its found value is logged as it is. -/
theorem C17_counterexample :
    snMatch (lit "credentials_file") = false ∧
    (FLBConfigStore.String ⟨true, fun _ => lit "/etc/gcp/creds.json"⟩
      (lit "credentials_file")).2 =
      some ⟨lit "credentials_file", true, some (.str (lit "/etc/gcp/creds.json")),
        lit "found config key"⟩ := by
  decide

/-- C17 (amended): for a key name in which the expression `sn` finds one of `pass`, `secret`,
`key`, `hash` in any letter case, the event that `logGetKey` builds for a found value holds
the mask of eight asterisks as its value, whatever the value; `api_key`, `client_secret` and
`password_hash` are such names, `credentials_file` is not. -/
theorem C17_sensitive_value_masked (f : FLBConfigStore) (n : GoString) (rv : ConfigValue)
    (ev : ConfigKeyEvent) (hn : snMatch n = true) (hev : f.logGetKey n rv true = some ev) :
    ev = ⟨n, true, some (.str (lit "********")), lit "found config key"⟩ ∧
    snMatch (lit "api_key") = true ∧ snMatch (lit "client_secret") = true ∧
    snMatch (lit "password_hash") = true ∧ snMatch (lit "API_KEY") = true ∧
    snMatch (lit "credentials_file") = false := by
  refine ⟨?_, by decide, by decide, by decide, by decide, by decide⟩
  unfold FLBConfigStore.logGetKey at hev
  cases hd : f.debugEnabled with
  | false => simp [hd] at hev
  | true =>
    simp only [hd, Bool.not_true, Bool.false_eq_true, if_false, if_true, hn,
      Option.some.injEq] at hev
    exact hev.symm

/-- Witness of C17 (amended): the key `api_key` with a found string value, debug level on. -/
theorem C17_sensitive_value_masked_witness :
    snMatch (lit "api_key") = true ∧
    (⟨true, fun _ => lit "s3cr3t"⟩ : FLBConfigStore).logGetKey (lit "api_key")
      (.str (lit "s3cr3t")) true =
      some ⟨lit "api_key", true, some (.str (lit "********")), lit "found config key"⟩ ∧
    (⟨lit "api_key", true, some (.str (lit "********")), lit "found config key"⟩ :
        ConfigKeyEvent) =
      ⟨lit "api_key", true, some (.str (lit "********")), lit "found config key"⟩ :=
  ⟨by decide, by decide,
    (C17_sensitive_value_masked ⟨true, fun _ => lit "s3cr3t"⟩ (lit "api_key")
      (.str (lit "s3cr3t")) _ (by decide) (by decide)).1⟩

/-- C18: the method `Strings` returns the fields of the configured value: the value is made of
the returned strings, in order, each a non-empty run of characters that are neither white
space nor a comma, with such separators only around and between them; no returned string is
empty or holds a comma or a space; found is true exactly when a string is returned, that is
when the value has a character that is not a separator; the value of the test with spaces
gives `val1`, `val2`, `val3`, `val4`. -/
theorem C18_Strings_fields (f : FLBConfigStore) (name : GoString) :
    (decodeRunes (f.getKey name)).flatMap (fun c => c.2) = f.getKey name ∧
    IsFieldSplit spt (decodeRunes (f.getKey name)) (f.Strings name).1.1 ∧
    (∀ s ∈ (f.Strings name).1.1, s ≠ [] ∧ 44 ∉ s ∧ 32 ∉ s) ∧
    ((f.Strings name).1.2 = true ↔ (f.Strings name).1.1 ≠ []) ∧
    ((f.Strings name).1.2 = true ↔ ∃ c ∈ decodeRunes (f.getKey name), spt c.1 = false) ∧
    (FLBConfigStore.Strings ⟨false, fun _ => lit " val1,  val2 ,val3 , val4"⟩ name).1 =
      ([lit "val1", lit "val2", lit "val3", lit "val4"], true) ∧
    (FLBConfigStore.Strings ⟨false, fun _ => lit ""⟩ name).1 = ([], false) ∧
    (FLBConfigStore.Strings ⟨false, fun _ => lit " , ,"⟩ name).1 = ([], false) := by
  have hsplit : IsFieldSplit spt (decodeRunes (f.getKey name)) (f.Strings name).1.1 :=
    (fieldsFunc_split spt (decodeRunes (f.getKey name))).1
  have hok : (f.Strings name).1.2 = true ↔ (f.Strings name).1.1 ≠ [] := by
    simp only [FLBConfigStore.Strings, gt_iff_lt, decide_eq_true_eq, List.length_pos]
  refine ⟨decodeRunes_go_bytes _ _ (le_refl _), hsplit, ?_, hok, ?_, rfl, rfl, rfl⟩
  · intro s hs
    obtain ⟨run, hne, hrun, rfl⟩ := hsplit.field_run s hs
    have hchar : ∀ c ∈ run, c.2 ≠ [] ∧ 44 ∉ c.2 ∧ 32 ∉ c.2 := by
      intro c hc
      have hbytes := decodeRunes_go_char _ _ c (hrun c hc).1
      exact ⟨hbytes.1, spt_not_sep_bytes c hbytes (hrun c hc).2⟩
    refine ⟨?_, ?_, ?_⟩
    · obtain ⟨c, hc⟩ := List.exists_mem_of_ne_nil run hne
      intro hnil
      have := List.flatMap_eq_nil_iff.mp hnil c hc
      exact (hchar c hc).1 this
    · intro hmem
      obtain ⟨c, hc, hin⟩ := List.mem_flatMap.mp hmem
      exact (hchar c hc).2.1 hin
    · intro hmem
      obtain ⟨c, hc, hin⟩ := List.mem_flatMap.mp hmem
      exact (hchar c hc).2.2 hin
  · rw [hok, Ne, hsplit.nil_iff]
    constructor
    · intro h
      by_contra hcon
      apply h
      intro c hc
      by_contra hsep
      exact hcon ⟨c, hc, by simpa using hsep⟩
    · rintro ⟨c, hc, hsep⟩ hall
      rw [hall c hc] at hsep
      cases hsep

/-- C19: the method `Bool` returns true and found for the values `1`, `t`, `T`, `TRUE`, `true`,
`True`, false and found for `0`, `f`, `F`, `FALSE`, `false`, `False`, and false and not found
for every other value, the empty value, `-1`, `2` and `hello` among them. -/
theorem C19_Bool_values (f : FLBConfigStore) (name : GoString) :
    (f.Bool name).1 =
      (if f.getKey name ∈ [lit "1", lit "t", lit "T", lit "TRUE", lit "true", lit "True"] then
        (true, true)
      else if f.getKey name ∈
          [lit "0", lit "f", lit "F", lit "FALSE", lit "false", lit "False"] then
        (false, true)
      else (false, false)) ∧
    (FLBConfigStore.Bool ⟨false, fun _ => lit ""⟩ name).1 = (false, false) ∧
    (FLBConfigStore.Bool ⟨false, fun _ => lit "-1"⟩ name).1 = (false, false) ∧
    (FLBConfigStore.Bool ⟨false, fun _ => lit "2"⟩ name).1 = (false, false) ∧
    (FLBConfigStore.Bool ⟨false, fun _ => lit "hello"⟩ name).1 = (false, false) := by
  refine ⟨?_, rfl, rfl, rfl, rfl⟩
  simp only [FLBConfigStore.Bool, parseBool]
  by_cases h₁ : f.getKey name ∈ [lit "1", lit "t", lit "T", lit "TRUE", lit "true", lit "True"]
  · have hne : f.getKey name ≠ [] := by
      intro h
      rw [h] at h₁
      revert h₁
      decide
    simp [h₁, hne]
  · by_cases h₂ : f.getKey name ∈
        [lit "0", lit "f", lit "F", lit "FALSE", lit "false", lit "False"]
    · have hne : f.getKey name ≠ [] := by
        intro h
        rw [h] at h₂
        revert h₂
        decide
      simp [h₁, h₂, hne]
    · simp [h₁, h₂]

/-- C20: the method `Validate` returns an error exactly when the project id or the topic id is
empty: the error on `gcp_project_id` when the project id is empty (the topic id empty or
not), the error on `topic_id` when only the topic id is empty, no error when both are set,
whatever the other fields; the configuration is left as it was. -/
theorem C20_Validate_required_fields (c : OutputPluginConfig) :
    ((c.Validate).2.isSome = true ↔ c.PID = [] ∨ c.TID = []) ∧
    (c.Validate).2 =
      (if c.PID = [] then some (.plain (lit "gcp_project_id is a required parameter"))
      else if c.TID = [] then some (.plain (lit "topic_id is a required parameter"))
      else none) ∧
    (c.Validate).1 = c := by
  unfold OutputPluginConfig.Validate
  by_cases h₁ : c.PID = []
  · simp only [h₁, if_true, Option.isSome_some, true_or, true_and]
    exact ⟨by decide, trivial⟩
  · by_cases h₂ : c.TID = []
    · simp only [h₁, h₂, if_true, if_false, Option.isSome_some, or_true, true_and]
      exact ⟨by decide, trivial⟩
    · simp [h₁, h₂]

/-! ## Lemmas on the instance table -/

theorem BuildPluginConfig_ID (id : Nat) (cs : ConfigStore) (defaults : PublishSettings) :
    (BuildPluginConfig id cs defaults).ID = id := rfl

theorem NewPluginFromConfig_ID (config : OutputPluginConfig) (env : InitEnv)
    (inst : OutputPlugin) (h : NewPluginFromConfig config env = .ok inst) :
    inst.ID = config.ID := by
  unfold NewPluginFromConfig at h
  split at h
  · cases h
  · split at h
    · cases h
    · split at h
      · cases h
      · cases h
        rfl

/-- One call either fails and keeps the table, or succeeds and appends the created plugin, whose
ID is the length of the table before the call; the context of the call holds that length. -/
theorem addPluginInstance_cases (s : PluginState) (ctx : Nat) (cs : ConfigStore)
    (defaults : PublishSettings) (env : InitEnv) :
    ((∃ err, NewPluginFromConfig (BuildPluginConfig s.pluginInstances.length cs defaults) env =
          .error err ∧
        (addPluginInstance s ctx cs defaults env).2 = some err ∧
        (addPluginInstance s ctx cs defaults env).1.pluginInstances = s.pluginInstances) ∨
      (∃ inst, NewPluginFromConfig (BuildPluginConfig s.pluginInstances.length cs defaults) env =
          .ok inst ∧
        (addPluginInstance s ctx cs defaults env).2 = none ∧
        (addPluginInstance s ctx cs defaults env).1.pluginInstances =
          s.pluginInstances ++ [inst] ∧
        inst.ID = s.pluginInstances.length)) ∧
    (addPluginInstance s ctx cs defaults env).1.context ctx = some s.pluginInstances.length ∧
    (∀ c, c ≠ ctx → (addPluginInstance s ctx cs defaults env).1.context c = s.context c) := by
  cases h : NewPluginFromConfig (BuildPluginConfig s.pluginInstances.length cs defaults) env with
  | error err =>
    refine ⟨Or.inl ⟨err, rfl, ?_, ?_⟩, ?_, ?_⟩
    · simp [addPluginInstance, h]
    · simp [addPluginInstance, h]
    · simp [addPluginInstance, h]
    · intro c hc
      simp [addPluginInstance, h, hc]
  | ok inst =>
    refine ⟨Or.inr ⟨inst, rfl, ?_, ?_, ?_⟩, ?_, ?_⟩
    · simp [addPluginInstance, h]
    · simp [addPluginInstance, h]
    · rw [NewPluginFromConfig_ID _ env inst h, BuildPluginConfig_ID]
    · simp [addPluginInstance, h]
    · intro c hc
      simp [addPluginInstance, h, hc]

theorem IDsMatch_append (table : List OutputPlugin) (inst : OutputPlugin)
    (h : IDsMatch table) (hid : inst.ID = table.length) : IDsMatch (table ++ [inst]) := by
  intro i p hp
  by_cases hi : i < table.length
  · rw [List.getElem?_append_left hi] at hp
    exact h i p hp
  · have hle : table.length ≤ i := by omega
    rw [List.getElem?_append_right hle] at hp
    cases hsub : i - table.length with
    | zero =>
      rw [hsub] at hp
      simp only [List.getElem?_cons_zero, Option.some.injEq] at hp
      subst hp
      omega
    | succ k =>
      rw [hsub] at hp
      simp at hp

theorem runInits_IDsMatch (defaults : PublishSettings) (calls : List InitCall) :
    ∀ s : PluginState, IDsMatch s.pluginInstances →
      IDsMatch (runInits defaults s calls).pluginInstances := by
  induction calls with
  | nil => intro s h; exact h
  | cons call calls ih =>
    intro s h
    apply ih
    rcases (addPluginInstance_cases s call.ctx call.cs defaults call.env).1 with
      ⟨_, _, _, htab⟩ | ⟨inst, _, _, htab, hid⟩
    · rw [htab]; exact h
    · rw [htab]; exact IDsMatch_append _ inst h hid

/-- Calls for other contexts keep the plugin that a context looks up. -/
theorem getPluginInstance_stable (defaults : PublishSettings) (ctx id : Nat)
    (inst : OutputPlugin) (later : List InitCall) :
    ∀ s : PluginState, (∀ call ∈ later, call.ctx ≠ ctx) → s.context ctx = some id →
      s.pluginInstances[id]? = some inst →
      getPluginInstance (runInits defaults s later) ctx = .ret inst := by
  induction later with
  | nil =>
    intro s _ hctx hget
    simp [runInits, getPluginInstance, hctx, hget]
  | cons call later ih =>
    intro s hne hctx hget
    have hcall : call.ctx ≠ ctx := hne call (List.mem_cons_self _ _)
    obtain ⟨htable, _, hother⟩ := addPluginInstance_cases s call.ctx call.cs defaults call.env
    apply ih _ (fun c hc => hne c (List.mem_cons_of_mem _ hc))
    · rw [hother ctx (fun h => hcall h.symm)]
      exact hctx
    · rcases htable with ⟨_, _, _, htab⟩ | ⟨x, _, _, htab, _⟩
      · rw [htab]; exact hget
      · rw [htab]
        have hlt : id < s.pluginInstances.length := by
          by_contra hcon
          rw [List.getElem?_eq_none (by omega)] at hget
          cases hget
        rw [List.getElem?_append_left hlt]
        exact hget

/-! ## Theorems: JSON-safe trees, first failure, instance table -/

/-- C21 (defect): `makeJSONMap` keeps a sequence as it is, so a byte sequence or a mapping inside
a sequence stays in the returned tree, which is then not JSON-safe; `json.Marshal` rejects
the tree with the mapping. -/
theorem C21_sequences_not_normalized :
    stringKeyed (.mapII [(.str (lit "tags"), .slice [.bytes (lit "x")])]) = true ∧
    makeJSONMap [(.str (lit "tags"), .slice [.bytes (lit "x")])] =
      .ret [(lit "tags", .slice [.bytes (lit "x")])] ∧
    jsonSafe (.mapSI [(lit "tags", .slice [.bytes (lit "x")])]) = false ∧
    makeJSONMap [(.str (lit "a"), .slice [.mapII [(.str (lit "b"), .int 1)]])] =
      .ret [(lit "a", .slice [.mapII [(.str (lit "b"), .int 1)]])] ∧
    jsonSafe (.mapSI [(lit "a", .slice [.mapII [(.str (lit "b"), .int 1)]])]) = false ∧
    refLib.jsonMarshal [(lit "a", .slice [.mapII [(.str (lit "b"), .int 1)]])] =
      .error (.plain (lit "json: unsupported type: map[interface \x7b\x7d]interface \x7b\x7d")) :=
  ⟨rfl, rfl, rfl, rfl, rfl, rfl⟩

/-- C22: the await loop returns the classification of the first handle, in submission order,
that resolved with an error, and `FLB_OK` when there is none; the handles after the first
failing one do not change the result. -/
theorem C22_await_first_failure (rb : List (Option GoError)) :
    awaitAll rb = firstFailureDisposition rb ∧
    (∀ (n : Nat) (err : GoError) (post post' : List (Option GoError)),
      firstFailure (List.replicate n none ++ some err :: post) = some err ∧
      awaitAll (List.replicate n none ++ some err :: post) = classifyError err ∧
      awaitAll (List.replicate n none ++ some err :: post) =
        awaitAll (List.replicate n none ++ some err :: post')) ∧
    (∀ n : Nat, firstFailure (List.replicate n none) = none ∧
      awaitAll (List.replicate n none) = FLB_OK) := by
  have key : ∀ l : List (Option GoError), awaitAll l = firstFailureDisposition l := by
    intro l
    induction l with
    | nil => rfl
    | cons r l ih =>
      cases r with
      | none => simpa [awaitAll, firstFailureDisposition, firstFailure] using ih
      | some e => rfl
  have hff : ∀ (n : Nat) (err : GoError) (post : List (Option GoError)),
      firstFailure (List.replicate n none ++ some err :: post) = some err := by
    intro n err post
    induction n with
    | zero => rfl
    | succ n ih => simpa [List.replicate_succ, firstFailure] using ih
  have hnone : ∀ n : Nat, firstFailure (List.replicate n none) = none := by
    intro n
    induction n with
    | zero => rfl
    | succ n ih => simpa [List.replicate_succ, firstFailure] using ih
  refine ⟨key rb, ?_, ?_⟩
  · intro n err post post'
    have h₁ : awaitAll (List.replicate n none ++ some err :: post) = classifyError err := by
      rw [key, firstFailureDisposition, hff]
    have h₂ : awaitAll (List.replicate n none ++ some err :: post') = classifyError err := by
      rw [key, firstFailureDisposition, hff]
    exact ⟨hff n err post, h₁, h₁.trans h₂.symm⟩
  · intro n
    refine ⟨hnone n, ?_⟩
    rw [key, firstFailureDisposition, hnone]

/-- C23: after any sequence of `addPluginInstance` calls from program start, every entry of the
table holds a plugin whose ID is its index; a failed call leaves the table as it was and a
successful call appends one entry, the created plugin; after a successful call for a
context, and any later calls for other contexts, the lookup by the id stored in that
context returns the plugin created for it. -/
theorem C23_instance_table (defaults : PublishSettings) :
    (∀ (calls : List InitCall) (i : Nat) (p : OutputPlugin),
      (runInits defaults PluginState.initial calls).pluginInstances[i]? = some p →
      p.ID = i) ∧
    (∀ (s : PluginState) (ctx : Nat) (cs : ConfigStore) (env : InitEnv),
      ((addPluginInstance s ctx cs defaults env).2.isSome = true ∧
        (addPluginInstance s ctx cs defaults env).1.pluginInstances = s.pluginInstances) ∨
      ((addPluginInstance s ctx cs defaults env).2 = none ∧
        ∃ inst, NewPluginFromConfig (BuildPluginConfig s.pluginInstances.length cs defaults)
            env = .ok inst ∧
          (addPluginInstance s ctx cs defaults env).1.pluginInstances =
            s.pluginInstances ++ [inst])) ∧
    (∀ (s : PluginState) (ctx : Nat) (cs : ConfigStore) (env : InitEnv)
      (later : List InitCall),
      (addPluginInstance s ctx cs defaults env).2 = none →
      (∀ call ∈ later, call.ctx ≠ ctx) →
      ∃ inst, NewPluginFromConfig (BuildPluginConfig s.pluginInstances.length cs defaults)
          env = .ok inst ∧
        getPluginInstance
          (runInits defaults (addPluginInstance s ctx cs defaults env).1 later) ctx =
          .ret inst) := by
  refine ⟨?_, ?_, ?_⟩
  · intro calls i p hp
    exact runInits_IDsMatch defaults calls PluginState.initial
      (by intro i p h; simp [PluginState.initial] at h) i p hp
  · intro s ctx cs env
    rcases (addPluginInstance_cases s ctx cs defaults env).1 with
      ⟨err, _, herr, htab⟩ | ⟨inst, hnew, herr, htab, _⟩
    · exact Or.inl ⟨by simp [herr], htab⟩
    · exact Or.inr ⟨herr, inst, hnew, htab⟩
  · intro s ctx cs env later hok hne
    obtain ⟨htable, hctx, _⟩ := addPluginInstance_cases s ctx cs defaults env
    rcases htable with ⟨err, _, herr, _⟩ | ⟨inst, hnew, _, htab, _⟩
    · rw [herr] at hok
      cases hok
    · refine ⟨inst, hnew, ?_⟩
      apply getPluginInstance_stable defaults ctx s.pluginInstances.length inst later _ hne hctx
      rw [htab]
      exact List.getElem?_concat_length _ _

/-- Witness of C23: a successful initialisation of context 7 followed by a failed one of
context 8; context 7 still looks up its plugin, whose ID is 0. -/
theorem C23_instance_table_witness :
    (addPluginInstance PluginState.initial 7
      ⟨fun _ => (false, false), fun _ => (0, false), fun _ => (0, false), fun _ => ([], false),
        fun _ => ([], false)⟩ ⟨0, 0, 0, 0⟩ ⟨none, .ok true, none⟩).2 = none ∧
    getPluginInstance
      (runInits ⟨0, 0, 0, 0⟩
        (addPluginInstance PluginState.initial 7
          ⟨fun _ => (false, false), fun _ => (0, false), fun _ => (0, false),
            fun _ => ([], false), fun _ => ([], false)⟩ ⟨0, 0, 0, 0⟩ ⟨none, .ok true, none⟩).1
        [⟨8, ⟨fun _ => (false, false), fun _ => (0, false), fun _ => (0, false),
            fun _ => ([], false), fun _ => ([], false)⟩,
          ⟨some (.plain (lit "no credentials")), .ok true, none⟩⟩]) 7 =
      .ret ⟨0, [], [], false, false⟩ := by
  obtain ⟨inst, hnew, hget⟩ := (C23_instance_table ⟨0, 0, 0, 0⟩).2.2 PluginState.initial 7
    ⟨fun _ => (false, false), fun _ => (0, false), fun _ => (0, false), fun _ => ([], false),
      fun _ => ([], false)⟩ ⟨none, .ok true, none⟩
    [⟨8, ⟨fun _ => (false, false), fun _ => (0, false), fun _ => (0, false),
        fun _ => ([], false), fun _ => ([], false)⟩,
      ⟨some (.plain (lit "no credentials")), .ok true, none⟩⟩]
    rfl (by
      intro call hcall
      simp only [List.mem_singleton] at hcall
      subst hcall
      decide)
  have hinst : inst = ⟨0, [], [], false, false⟩ := by
    have h : NewPluginFromConfig (BuildPluginConfig PluginState.initial.pluginInstances.length
        ⟨fun _ => (false, false), fun _ => (0, false), fun _ => (0, false),
          fun _ => ([], false), fun _ => ([], false)⟩ ⟨0, 0, 0, 0⟩) ⟨none, .ok true, none⟩ =
        .ok ⟨0, [], [], false, false⟩ := rfl
    rw [h] at hnew
    cases hnew
    rfl
  rw [hinst] at hget
  exact ⟨rfl, hget⟩

end PubSubPlugin
